import Mathlib

/-!
Verification development for the evidence-validation pipeline
(`utils/llm_response_parser.py`, `utils/evidence_validator.py`,
`utils/indirect_chain_linker.py`).

The Python code is shallowly embedded: JSON values become the mutual
inductive `Json` below (numbers are modelled as integers; floating point
numbers do not occur in any property under study), Python dictionaries
become association lists in declaration order (Python dict assignment
keeps the position of an existing key, insertion appends), exceptions
become `Except`, and the external Gemini service becomes an explicit
oracle argument.  All definitions are written with structural recursion
(explicit fuel where needed) so that they evaluate inside `decide`/`rfl`.
-/

set_option maxRecDepth 20000

mutual

/-- JSON values as produced by `json.loads`.  `jarr`/`jobj` use mutual
inductives rather than nested `List` so that all functions over them can
be compiled by structural recursion. -/
inductive Json where
  | jnull : Json
  | jbool (b : Bool) : Json
  | jnum (n : Int) : Json
  | jstr (s : String) : Json
  | jarr (a : JArr) : Json
  | jobj (o : JObj) : Json

/-- Ordered sequence of JSON values (a JSON array). -/
inductive JArr where
  | nil : JArr
  | cons (hd : Json) (tl : JArr) : JArr

/-- Ordered key/value pairs (a JSON object, in insertion order). -/
inductive JObj where
  | nil : JObj
  | cons (k : String) (v : Json) (tl : JObj) : JObj

end

mutual

/-- Decidable equality for `Json`. -/
def Json.beq : Json → Json → Bool
  | .jnull, .jnull => true
  | .jbool a, .jbool b => a == b
  | .jnum a, .jnum b => a == b
  | .jstr a, .jstr b => a == b
  | .jarr a, .jarr b => JArr.beq a b
  | .jobj a, .jobj b => JObj.beq a b
  | _, _ => false

/-- Decidable equality for `JArr`. -/
def JArr.beq : JArr → JArr → Bool
  | .nil, .nil => true
  | .cons h t, .cons h2 t2 => Json.beq h h2 && JArr.beq t t2
  | _, _ => false

/-- Decidable equality for `JObj`. -/
def JObj.beq : JObj → JObj → Bool
  | .nil, .nil => true
  | .cons k v t, .cons k2 v2 t2 => k == k2 && Json.beq v v2 && JObj.beq t t2
  | _, _ => false

end

mutual

theorem Json.beq_refl : ∀ j : Json, Json.beq j j = true
  | .jnull => rfl
  | .jbool b => by simp [Json.beq]
  | .jnum n => by simp [Json.beq]
  | .jstr s => by simp [Json.beq]
  | .jarr a => by simp [Json.beq, JArr.beq_refl_arr a]
  | .jobj o => by simp [Json.beq, JObj.beq_refl_obj o]

theorem JArr.beq_refl_arr : ∀ a : JArr, JArr.beq a a = true
  | .nil => rfl
  | .cons h t => by simp [JArr.beq, Json.beq_refl h, JArr.beq_refl_arr t]

theorem JObj.beq_refl_obj : ∀ o : JObj, JObj.beq o o = true
  | .nil => rfl
  | .cons k v t => by simp [JObj.beq, Json.beq_refl v, JObj.beq_refl_obj t]

end

mutual

theorem Json.eq_of_beq : ∀ a b : Json, Json.beq a b = true → a = b
  | .jnull, .jnull, _ => rfl
  | .jnull, .jbool _, h => by simp [Json.beq] at h
  | .jnull, .jnum _, h => by simp [Json.beq] at h
  | .jnull, .jstr _, h => by simp [Json.beq] at h
  | .jnull, .jarr _, h => by simp [Json.beq] at h
  | .jnull, .jobj _, h => by simp [Json.beq] at h
  | .jbool _, .jnull, h => by simp [Json.beq] at h
  | .jbool a, .jbool b, h => by simp [Json.beq] at h; simp [h]
  | .jbool _, .jnum _, h => by simp [Json.beq] at h
  | .jbool _, .jstr _, h => by simp [Json.beq] at h
  | .jbool _, .jarr _, h => by simp [Json.beq] at h
  | .jbool _, .jobj _, h => by simp [Json.beq] at h
  | .jnum _, .jnull, h => by simp [Json.beq] at h
  | .jnum _, .jbool _, h => by simp [Json.beq] at h
  | .jnum a, .jnum b, h => by simp [Json.beq] at h; simp [h]
  | .jnum _, .jstr _, h => by simp [Json.beq] at h
  | .jnum _, .jarr _, h => by simp [Json.beq] at h
  | .jnum _, .jobj _, h => by simp [Json.beq] at h
  | .jstr _, .jnull, h => by simp [Json.beq] at h
  | .jstr _, .jbool _, h => by simp [Json.beq] at h
  | .jstr _, .jnum _, h => by simp [Json.beq] at h
  | .jstr a, .jstr b, h => by simp [Json.beq] at h; simp [h]
  | .jstr _, .jarr _, h => by simp [Json.beq] at h
  | .jstr _, .jobj _, h => by simp [Json.beq] at h
  | .jarr _, .jnull, h => by simp [Json.beq] at h
  | .jarr _, .jbool _, h => by simp [Json.beq] at h
  | .jarr _, .jnum _, h => by simp [Json.beq] at h
  | .jarr _, .jstr _, h => by simp [Json.beq] at h
  | .jarr a, .jarr b, h => by
      simp [Json.beq] at h
      exact congrArg Json.jarr (JArr.eq_of_beq_arr a b h)
  | .jarr _, .jobj _, h => by simp [Json.beq] at h
  | .jobj _, .jnull, h => by simp [Json.beq] at h
  | .jobj _, .jbool _, h => by simp [Json.beq] at h
  | .jobj _, .jnum _, h => by simp [Json.beq] at h
  | .jobj _, .jstr _, h => by simp [Json.beq] at h
  | .jobj _, .jarr _, h => by simp [Json.beq] at h
  | .jobj a, .jobj b, h => by
      simp [Json.beq] at h
      exact congrArg Json.jobj (JObj.eq_of_beq_obj a b h)

theorem JArr.eq_of_beq_arr : ∀ a b : JArr, JArr.beq a b = true → a = b
  | .nil, .nil, _ => rfl
  | .nil, .cons _ _, h => by simp [JArr.beq] at h
  | .cons _ _, .nil, h => by simp [JArr.beq] at h
  | .cons h1 t1, .cons h2 t2, h => by
      simp [JArr.beq] at h
      rw [Json.eq_of_beq h1 h2 h.1, JArr.eq_of_beq_arr t1 t2 h.2]

theorem JObj.eq_of_beq_obj : ∀ a b : JObj, JObj.beq a b = true → a = b
  | .nil, .nil, _ => rfl
  | .nil, .cons _ _ _, h => by simp [JObj.beq] at h
  | .cons _ _ _, .nil, h => by simp [JObj.beq] at h
  | .cons k1 v1 t1, .cons k2 v2 t2, h => by
      simp [JObj.beq] at h
      obtain ⟨⟨hk, hv⟩, ht⟩ := h
      subst hk
      rw [Json.eq_of_beq v1 v2 hv, JObj.eq_of_beq_obj t1 t2 ht]

end

instance : DecidableEq Json := fun a b =>
  if h : Json.beq a b = true then .isTrue (Json.eq_of_beq a b h)
  else .isFalse (fun he => h (he ▸ Json.beq_refl a))

instance : DecidableEq JArr := fun a b =>
  if h : JArr.beq a b = true then .isTrue (JArr.eq_of_beq_arr a b h)
  else .isFalse (fun he => h (he ▸ JArr.beq_refl_arr a))

instance : DecidableEq JObj := fun a b =>
  if h : JObj.beq a b = true then .isTrue (JObj.eq_of_beq_obj a b h)
  else .isFalse (fun he => h (he ▸ JObj.beq_refl_obj a))

/-- Convert a JSON array to a Lean list of its elements. -/
def JArr.toList : JArr → List Json
  | .nil => []
  | .cons h t => h :: JArr.toList t

/-- Build a JSON array from a Lean list. -/
def JArr.ofList : List Json → JArr
  | [] => .nil
  | h :: t => .cons h (JArr.ofList t)

theorem JArr.toList_ofList (l : List Json) : (JArr.ofList l).toList = l := by
  induction l with
  | nil => rfl
  | cons h t ih => simp [JArr.ofList, JArr.toList, ih]

/-- Python `d.get(k)`: the value stored at the first occurrence of key
`k`, if any. -/
def JObj.get : JObj → String → Option Json
  | .nil, _ => none
  | .cons k v t, key => if k = key then some v else JObj.get t key

/-- Python `d.get(k, default)`. -/
def JObj.getD (o : JObj) (key : String) (dflt : Json) : Json :=
  (o.get key).getD dflt

/-- Python `d[k] = v`: replace the value at an existing key in place,
otherwise append the binding at the end. -/
def JObj.set : JObj → String → Json → JObj
  | .nil, key, v => .cons key v .nil
  | .cons k w t, key, v =>
      if k = key then .cons k v t else .cons k w (JObj.set t key v)

theorem JObj.get_set_ne : ∀ (o : JObj) (k k2 : String) (v : Json), k ≠ k2 →
    (o.set k v).get k2 = o.get k2
  | .nil, k, k2, v, h => by simp [JObj.set, JObj.get, h]
  | .cons k3 w t, k, k2, v, h => by
      by_cases h3 : k3 = k
      · simp [JObj.set, h3, JObj.get, h]
      · simp [JObj.set, h3, JObj.get]
        split
        · rfl
        · exact JObj.get_set_ne t k k2 v h

theorem JObj.get_set_self : ∀ (o : JObj) (k : String) (v : Json),
    (o.set k v).get k = some v
  | .nil, k, v => by simp [JObj.set, JObj.get]
  | .cons k3 w t, k, v => by
      by_cases h3 : k3 = k
      · simp [JObj.set, h3, JObj.get]
      · simp [JObj.set, h3, JObj.get, JObj.get_set_self t k v]

/-- Python truthiness of a JSON value (`if x:`). -/
def pythonTruthy : Json → Bool
  | .jnull => false
  | .jbool b => b
  | .jnum n => n != 0
  | .jstr s => s ≠ ""
  | .jarr .nil => false
  | .jarr _ => true
  | .jobj .nil => false
  | .jobj _ => true

/-! ### Character classes

Python distinguishes two whitespace notions that matter here: `str.strip()`
and the regex class `\s` use the wide class (including vertical tab and
form feed), while `json.loads` only skips the four JSON whitespace
characters between tokens.  Non-ASCII whitespace is not modelled (none of
the properties under study involve it). -/

/-- Whitespace as matched by Python `str.strip()` and the regex class
`\s` (ASCII part). -/
def pyWS (c : Char) : Bool :=
  c = ' ' || c = '\t' || c = '\n' || c = '\r' || c = '\x0b' || c = '\x0c'

/-- Whitespace skipped between tokens by `json.loads`. -/
def jsonWS (c : Char) : Bool :=
  c = ' ' || c = '\t' || c = '\n' || c = '\r'

/-- Python `s.strip()` on a list of characters. -/
def trimBoth (cs : List Char) : List Char :=
  ((cs.dropWhile pyWS).reverse.dropWhile pyWS).reverse

/-! ### JSON serialization (`json.dumps`-style, modelled from the spec)

Modelled from the spec: the spec's testable property §8 speaks of
`serialize(v)` for a JSON value `v` without pinning an implementation
(the repository never serializes values for that property itself).  We
model a standard compact JSON serializer: strings are escaped with the
usual two-character escapes and `\u00XX` for other control characters;
numbers are integers (floating point is outside the model). -/

/-- Decimal digit character for `n < 10`. -/
def digitChar (n : Nat) : Char := Char.ofNat (48 + n)

/-- Lowercase hexadecimal digit character for `n < 16`. -/
def hexChar (n : Nat) : Char :=
  if n < 10 then Char.ofNat (48 + n) else Char.ofNat (87 + n)

/-- Decimal digits of `n`, most significant first (with fuel; the fuel
`n + 1` always suffices). -/
def natDigitsAux : Nat → Nat → List Char
  | 0, _ => []
  | fuel + 1, n =>
      if n < 10 then [digitChar n]
      else natDigitsAux fuel (n / 10) ++ [digitChar (n % 10)]

/-- Decimal digits of a natural number, most significant first. -/
def natDigits (n : Nat) : List Char := natDigitsAux (n + 1) n

/-- Serialization of an integer. -/
def intChars (n : Int) : List Char :=
  if n < 0 then '-' :: natDigits n.natAbs else natDigits n.natAbs

/-- Escape one character for inclusion in a JSON string literal. -/
def escChar (c : Char) : List Char :=
  if c = '"' then ['\\', '"']
  else if c = '\\' then ['\\', '\\']
  else if c = '\n' then ['\\', 'n']
  else if c = '\t' then ['\\', 't']
  else if c = '\r' then ['\\', 'r']
  else if c = '\x08' then ['\\', 'b']
  else if c = '\x0c' then ['\\', 'f']
  else if c.toNat < 32 then
    ['\\', 'u', '0', '0', hexChar (c.toNat / 16), hexChar (c.toNat % 16)]
  else [c]

/-- Escape every character of a JSON string body. -/
def escString : List Char → List Char
  | [] => []
  | c :: r => escChar c ++ escString r

mutual

/-- Compact JSON serialization of a value, as a character list. -/
def Json.dumpChars : Json → List Char
  | .jnull => ['n', 'u', 'l', 'l']
  | .jbool true => ['t', 'r', 'u', 'e']
  | .jbool false => ['f', 'a', 'l', 's', 'e']
  | .jnum n => intChars n
  | .jstr s => '"' :: (escString s.toList ++ ['"'])
  | .jarr .nil => ['[', ']']
  | .jarr (.cons h t) => '[' :: (Json.dumpChars h ++ JArr.dumpRest t ++ [']'])
  | .jobj .nil => ['\x7b', '\x7d']
  | .jobj (.cons k v t) =>
      '\x7b' :: ('"' :: (escString k.toList ++ ['"', ':']) ++ Json.dumpChars v
        ++ JObj.dumpRest t ++ ['\x7d'])

/-- Serialization of the remaining elements of an array (each preceded
by a comma). -/
def JArr.dumpRest : JArr → List Char
  | .nil => []
  | .cons h t => ',' :: (Json.dumpChars h ++ JArr.dumpRest t)

/-- Serialization of the remaining members of an object (each preceded
by a comma). -/
def JObj.dumpRest : JObj → List Char
  | .nil => []
  | .cons k v t =>
      ',' :: ('"' :: (escString k.toList ++ ['"', ':']) ++ Json.dumpChars v
        ++ JObj.dumpRest t)

end

/-- The spec's `serialize(v)`. -/
def serializeJson (v : Json) : String := String.mk v.dumpChars

/-! ### JSON parsing (`json.loads`)

Model of CPython's strict `json.loads`.  Deliberate model boundaries,
none of which is exercised by the properties under study: numbers are
integers (a float literal makes the surrounding parse fail instead of
producing a float), `NaN`/`Infinity` extensions are rejected, and
surrogate `\uXXXX` escapes are rejected rather than combined. -/

/-- Value of a hexadecimal digit character. -/
def hexVal? (c : Char) : Option Nat :=
  if '0' ≤ c ∧ c ≤ '9' then some (c.toNat - 48)
  else if 'a' ≤ c ∧ c ≤ 'f' then some (c.toNat - 87)
  else if 'A' ≤ c ∧ c ≤ 'F' then some (c.toNat - 55)
  else none

/-- The single character denoted by a two-character escape `\e`, when
`e` is one of the eight short escapes. -/
def shortEscape? (e : Char) : Option Char :=
  if e = '"' then some '"'
  else if e = '\\' then some '\\'
  else if e = '/' then some '/'
  else if e = 'b' then some '\x08'
  else if e = 'f' then some '\x0c'
  else if e = 'n' then some '\n'
  else if e = 'r' then some '\r'
  else if e = 't' then some '\t'
  else none

/-- Parse the body of a JSON string literal (after the opening quote),
returning the decoded characters and the remainder after the closing
quote.  Raw control characters are rejected (strict mode). -/
def parseStringBody : List Char → Option (List Char × List Char)
  | [] => none
  | c :: rest =>
      if c = '"' then some ([], rest)
      else if c = '\\' then
        match rest with
        | [] => none
        | e :: r =>
            if e = 'u' then
              match r with
              | h1 :: h2 :: h3 :: h4 :: r2 =>
                  match hexVal? h1, hexVal? h2, hexVal? h3, hexVal? h4 with
                  | some a, some b, some c2, some d =>
                      let n := ((a * 16 + b) * 16 + c2) * 16 + d
                      if 0xd800 ≤ n ∧ n < 0xe000 then none
                      else (parseStringBody r2).map fun p => (Char.ofNat n :: p.1, p.2)
                  | _, _, _, _ => none
              | _ => none
            else
              match shortEscape? e with
              | some decoded => (parseStringBody r).map fun p => (decoded :: p.1, p.2)
              | none => none
      else if c.toNat < 32 then none
      else (parseStringBody rest).map fun p => (c :: p.1, p.2)

/-- Numeric value of a list of decimal digit characters. -/
def digitsVal (ds : List Char) : Nat :=
  ds.foldl (fun a c => a * 10 + (c.toNat - 48)) 0

/-- Parse the unsigned integer part `0|[1-9][0-9]*` of a JSON number. -/
def parseNatCore : List Char → Option (Nat × List Char)
  | '0' :: r => some (0, r)
  | t@(c :: _) =>
      if c.isDigit then
        some (digitsVal (t.takeWhile Char.isDigit), t.dropWhile Char.isDigit)
      else none
  | [] => none

/-- Parse a JSON integer literal (sign and integer part only; mirrors
the integer alternative `-?(0|[1-9][0-9]*)` of CPython's number regex). -/
def parseIntLit (s : List Char) : Option (Int × List Char) :=
  match s with
  | '-' :: r => (parseNatCore r).map fun p => (-(p.1 : Int), p.2)
  | _ => (parseNatCore s).map fun p => ((p.1 : Int), p.2)

/-- Require an exact literal character sequence, returning the rest. -/
def expectChars : List Char → List Char → Option (List Char)
  | [], s => some s
  | _ :: _, [] => none
  | p :: ps, x :: xs => if x = p then expectChars ps xs else none

theorem expectChars_append (ps rest : List Char) :
    expectChars ps (ps ++ rest) = some rest := by
  induction ps with
  | nil => rfl
  | cons p ps ih => simp [expectChars, ih]

mutual

/-- Parse one JSON value, skipping leading JSON whitespace; returns the
value and the unconsumed remainder. -/
def parseValue : Nat → List Char → Option (Json × List Char)
  | 0, _ => none
  | fuel + 1, s =>
      match s.dropWhile jsonWS with
      | [] => none
      | c :: r =>
          if c = 'n' then
            match expectChars ['u', 'l', 'l'] r with
            | some r2 => some (.jnull, r2)
            | none => none
          else if c = 't' then
            match expectChars ['r', 'u', 'e'] r with
            | some r2 => some (.jbool true, r2)
            | none => none
          else if c = 'f' then
            match expectChars ['a', 'l', 's', 'e'] r with
            | some r2 => some (.jbool false, r2)
            | none => none
          else if c = '"' then
            (parseStringBody r).map fun p => (.jstr (String.mk p.1), p.2)
          else if c = '[' then
            (parseArrElems fuel r).map fun p => (.jarr (JArr.ofList p.1), p.2)
          else if c = '\x7b' then
            (parseObjElems fuel r).map fun p => (.jobj p.1, p.2)
          else (parseIntLit (c :: r)).map fun p => (.jnum p.1, p.2)

/-- Parse the elements of an array after the opening bracket. -/
def parseArrElems : Nat → List Char → Option (List Json × List Char)
  | 0, _ => none
  | fuel + 1, s =>
      match s.dropWhile jsonWS with
      | [] => none
      | c :: r =>
          if c = ']' then some ([], r)
          else
            match parseValue fuel s with
            | none => none
            | some (v, r2) =>
                (parseArrRest fuel r2).map fun p => (v :: p.1, p.2)

/-- Parse an array continuation: a comma and another element, or the
closing bracket. -/
def parseArrRest : Nat → List Char → Option (List Json × List Char)
  | 0, _ => none
  | fuel + 1, s =>
      match s.dropWhile jsonWS with
      | [] => none
      | c :: r =>
          if c = ']' then some ([], r)
          else if c = ',' then
            match parseValue fuel r with
            | none => none
            | some (v, r2) =>
                (parseArrRest fuel r2).map fun p => (v :: p.1, p.2)
          else none

/-- Parse the members of an object after the opening brace. -/
def parseObjElems : Nat → List Char → Option (JObj × List Char)
  | 0, _ => none
  | fuel + 1, s =>
      match s.dropWhile jsonWS with
      | [] => none
      | c :: r =>
          if c = '\x7d' then some (.nil, r)
          else if c = '"' then
            match parseStringBody r with
            | none => none
            | some (key, r2) =>
                match r2.dropWhile jsonWS with
                | [] => none
                | c2 :: r3 =>
                    if c2 = ':' then
                      match parseValue fuel r3 with
                      | none => none
                      | some (v, r4) =>
                          (parseObjRest fuel r4).map fun p =>
                            (JObj.cons (String.mk key) v p.1, p.2)
                    else none
          else none

/-- Parse an object continuation: a comma and another member, or the
closing brace. -/
def parseObjRest : Nat → List Char → Option (JObj × List Char)
  | 0, _ => none
  | fuel + 1, s =>
      match s.dropWhile jsonWS with
      | [] => none
      | c :: r =>
          if c = '\x7d' then some (.nil, r)
          else if c = ',' then
            match r.dropWhile jsonWS with
            | [] => none
            | c2 :: r2 =>
                if c2 = '"' then
                  match parseStringBody r2 with
                  | none => none
                  | some (key, r3) =>
                      match r3.dropWhile jsonWS with
                      | [] => none
                      | c3 :: r4 =>
                          if c3 = ':' then
                            match parseValue fuel r4 with
                            | none => none
                            | some (v, r5) =>
                                (parseObjRest fuel r5).map fun p =>
                                  (JObj.cons (String.mk key) v p.1, p.2)
                          else none
                else none
          else none

end

/-- Python `json.loads` on a character list: parse one value and require
only whitespace to remain. -/
def jsonLoadsChars (cs : List Char) : Option Json :=
  match parseValue (2 * cs.length + 2) cs with
  | some (v, rest) => if rest.dropWhile jsonWS = [] then some v else none
  | none => none

/-- Python `json.loads` on a string. -/
def json_loads (s : String) : Option Json := jsonLoadsChars s.toList

/-! ### Fenced code block scanning

Model of `re.findall(r"```(?:json)?\s*([\s\S]*?)\s*```", cleaned, re.IGNORECASE)`
from `utils/llm_response_parser.py`.  For this pattern the regex engine's
behaviour is: find the leftmost opening triple backtick, optionally
consume a case-insensitive `json` tag directly after it, then (because
the inner group is lazy) close the match at the *first* following triple
backtick; the surrounding `\s*` strip whitespace from both ends of the
captured group; scanning resumes after the closing fence. -/

/-- Does the list start with three backticks? -/
def startsWithTriple : List Char → Bool
  | '`' :: '`' :: '`' :: _ => true
  | _ => false

/-- Split at the first triple backtick: the characters before it and the
characters after it. -/
def splitFence : List Char → Option (List Char × List Char)
  | [] => none
  | c :: r =>
      if startsWithTriple (c :: r) then some ([], r.drop 2)
      else (splitFence r).map fun p => (c :: p.1, p.2)

/-- Does a triple backtick occur anywhere in the list? -/
def hasTriple (cs : List Char) : Bool := (splitFence cs).isSome

/-- Consume an optional case-insensitive `json` language tag. -/
def dropJsonTag (s : List Char) : List Char :=
  match s with
  | c1 :: c2 :: c3 :: c4 :: r =>
      if (c1 = 'j' ∨ c1 = 'J') ∧ (c2 = 's' ∨ c2 = 'S') ∧ (c3 = 'o' ∨ c3 = 'O')
          ∧ (c4 = 'n' ∨ c4 = 'N') then r else s
  | _ => s

/-- Scan for fenced code blocks (with fuel); returns the captured,
whitespace-stripped contents in order of appearance. -/
def findBlocksAux : Nat → List Char → List (List Char)
  | 0, _ => []
  | fuel + 1, s =>
      match splitFence s with
      | none => []
      | some (_, afterOpen) =>
          match splitFence (dropJsonTag afterOpen) with
          | none => []
          | some (seg, rest) => trimBoth seg :: findBlocksAux fuel rest

/-- All fenced code block captures of a text, in order of appearance. -/
def findCodeBlocks (s : List Char) : List (List Char) :=
  findBlocksAux (s.length + 1) s

/-! ### The response extractor (`extract_json_from_llm_response`) -/

/-- The `ValueError` raised by the extractor when nothing parses: it
carries the length of the raw response and a 200-character preview. -/
structure ExtractError where
  length : Nat
  preview : String
  deriving DecidableEq

instance {ε α : Type} [DecidableEq ε] [DecidableEq α] : DecidableEq (Except ε α)
  | .error e, .error f =>
      if h : e = f then .isTrue (congrArg Except.error h)
      else .isFalse fun he => h (Except.error.inj he)
  | .error _, .ok _ => .isFalse fun he => Except.noConfusion he
  | .ok _, .error _ => .isFalse fun he => Except.noConfusion he
  | .ok a, .ok b =>
      if h : a = b then .isTrue (congrArg Except.ok h)
      else .isFalse fun he => h (Except.ok.inj he)

/-- Try `json.loads` on each code block in order; first success wins. -/
def firstParse : List (List Char) → Option Json
  | [] => none
  | b :: bs =>
      match jsonLoadsChars b with
      | some v => some v
      | none => firstParse bs

/-- Index of the first occurrence of a character. -/
def firstIdx? : List Char → Char → Option Nat
  | [], _ => none
  | d :: r, c => if d = c then some 0 else (firstIdx? r c).map (· + 1)

/-- Index of the last occurrence of a character. -/
def lastIdx? : List Char → Char → Option Nat
  | [], _ => none
  | d :: r, c =>
      match lastIdx? r c with
      | some i => some (i + 1)
      | none => if d = c then some 0 else none

/-- The fallback start index: `cleaned.find("{")` / `cleaned.find("[")`
combined exactly as in the source (minimum when both exist). -/
def spanStartIdx (cs : List Char) : Option Nat :=
  match firstIdx? cs '\x7b', firstIdx? cs '[' with
  | some b, some k => some (min b k)
  | some b, none => some b
  | none, some k => some k
  | none, none => none

/-- The fallback candidate substring of step 3 of the extractor, as in
the source: start at the first brace/bracket, end at the last `\x7d` (if
the start is a brace) or the last `]` (if a bracket), requiring the end
to lie strictly after the start. -/
def spanCandidate (cs : List Char) : Option (List Char) :=
  match spanStartIdx cs with
  | none => none
  | some st =>
      let isObject : Bool := cs.get? st = some '\x7b'
      match (if isObject then lastIdx? cs '\x7d' else lastIdx? cs ']') with
      | none => none
      | some en => if st < en then some ((cs.drop st).take (en + 1 - st)) else none

/-- Embedding of `extract_json_from_llm_response`
(`utils/llm_response_parser.py`, lines 28 to 87): strip the text, try
every fenced code block in order, then the whole stripped text, then the
heuristic first-brace-to-last-brace span; if everything fails, raise
`ValueError` carrying the raw response length and a 200-character
preview. -/
def extract_json_from_llm_response (text : String) : Except ExtractError Json :=
  let cleaned := trimBoth text.toList
  match firstParse (findCodeBlocks cleaned) <|> jsonLoadsChars cleaned
      <|> (spanCandidate cleaned).bind jsonLoadsChars with
  | some v => .ok v
  | none => .error ⟨text.length, String.mk (text.toList.take 200)⟩

/-! ### The extractor as described by the specification (for C2) -/

/-- Index of the first character satisfying a predicate. -/
def firstIdxP (p : Char → Bool) : List Char → Option Nat
  | [] => none
  | d :: r => if p d then some 0 else (firstIdxP p r).map (· + 1)

/-- Start index as the spec words it: the first occurrence of `\x7b` or
`[`, whichever comes first. -/
def spanStartIdxSpec (cs : List Char) : Option Nat :=
  firstIdxP (fun c => c = '\x7b' || c = '[') cs

/-- Step 3 as the spec words it: the substring from the first
brace/bracket to the last `\x7d` (when the start is `\x7b`) or to the
last `]` (otherwise), with no further condition. -/
def spanCandidateSpec (cs : List Char) : Option (List Char) :=
  match spanStartIdxSpec cs with
  | none => none
  | some st =>
      let isObject : Bool := cs.get? st = some '\x7b'
      match (if isObject then lastIdx? cs '\x7d' else lastIdx? cs ']') with
      | none => none
      | some en => some ((cs.drop st).take (en + 1 - st))

/-- The extraction algorithm exactly as claim C2 words it: fenced blocks
in order of appearance, then the whole trimmed text, then the heuristic
span, else the parse error. -/
def extractJsonSpec (text : String) : Except ExtractError Json :=
  let cleaned := trimBoth text.toList
  match firstParse (findCodeBlocks cleaned) <|> jsonLoadsChars cleaned
      <|> (spanCandidateSpec cleaned).bind jsonLoadsChars with
  | some v => .ok v
  | none => .error ⟨text.length, String.mk (text.toList.take 200)⟩

/-! ### Equivalence of the source extractor and its specification (C2) -/

theorem firstIdx?_get : ∀ (cs : List Char) (c : Char) (i : Nat),
    firstIdx? cs c = some i → cs.get? i = some c
  | [], c, i, h => by simp [firstIdx?] at h
  | d :: r, c, i, h => by
      by_cases hd : d = c
      · simp [firstIdx?, hd] at h
        simp [← h, hd]
      · simp [firstIdx?, hd] at h
        obtain ⟨j, hj, hji⟩ := h
        cases hji
        simpa using firstIdx?_get r c j hj

theorem firstIdxP_get : ∀ (p : Char → Bool) (cs : List Char) (i : Nat),
    firstIdxP p cs = some i → ∃ c, cs.get? i = some c ∧ p c = true
  | p, [], i, h => by simp [firstIdxP] at h
  | p, d :: r, i, h => by
      by_cases hd : p d
      · simp [firstIdxP, hd] at h
        exact ⟨d, by simp [← h], hd⟩
      · simp [firstIdxP, hd] at h
        obtain ⟨j, hj, hji⟩ := h
        cases hji
        obtain ⟨c, hc, hpc⟩ := firstIdxP_get p r j hj
        exact ⟨c, by simpa using hc, hpc⟩

theorem spanStartIdx_cons_neg (d : Char) (r : List Char) (hb : d ≠ '\x7b')
    (hk : d ≠ '[') : spanStartIdx (d :: r) = (spanStartIdx r).map (· + 1) := by
  simp only [spanStartIdx, firstIdx?, hb, hk, if_false]
  cases firstIdx? r '\x7b' <;> cases firstIdx? r '[' <;>
    (simp [Nat.min_def]; try (split_ifs <;> omega))

theorem spanStartIdx_eq_spec : ∀ cs : List Char, spanStartIdx cs = spanStartIdxSpec cs
  | [] => by simp [spanStartIdx, spanStartIdxSpec, firstIdx?, firstIdxP]
  | d :: r => by
      by_cases hb : d = '\x7b'
      · subst hb
        simp only [spanStartIdx, spanStartIdxSpec, firstIdx?, firstIdxP]
        norm_num
        cases firstIdx? r '[' <;> simp
      · by_cases hk : d = '['
        · subst hk
          simp only [spanStartIdx, spanStartIdxSpec, firstIdx?, firstIdxP]
          norm_num
          cases firstIdx? r '\x7b' <;> simp [Nat.min_def]
        · have ih := spanStartIdx_eq_spec r
          rw [spanStartIdx_cons_neg d r hb hk, ih]
          simp [spanStartIdxSpec, firstIdxP, hb, hk]

theorem jsonLoads_nil : jsonLoadsChars [] = none := rfl

theorem jsonLoads_openBrace : jsonLoadsChars ['\x7b'] = none := by decide

theorem jsonLoads_openBracket : jsonLoadsChars ['['] = none := by decide

/-- The step-3 fallback, followed by `json.loads`, behaves identically in
the source and in the spec reading: the source's extra `end > start`
guard only skips substrings (empty, or a single opening delimiter) that
could never parse. -/
theorem spanParse_eq_spec (cs : List Char) :
    (spanCandidate cs).bind jsonLoadsChars = (spanCandidateSpec cs).bind jsonLoadsChars := by
  unfold spanCandidate spanCandidateSpec
  rw [← spanStartIdx_eq_spec]
  cases hst : spanStartIdx cs with
  | none => rfl
  | some st =>
      have hchar : ∃ c, cs.get? st = some c ∧ (c = '\x7b' || c = '[') = true := by
        rw [spanStartIdx_eq_spec] at hst
        exact firstIdxP_get _ cs st hst
      obtain ⟨c, hc, hcor⟩ := hchar
      have hdrop : cs.drop st = c :: cs.drop (st + 1) := by
        have hp := List.get?_eq_some.mp hc
        obtain ⟨hlen, hgetc⟩ := hp
        rw [List.drop_eq_getElem_cons hlen]
        simp only [List.get_eq_getElem] at hgetc
        rw [hgetc]
      have key : ∀ lastOf : Option Nat,
          (match lastOf with
            | none => none
            | some en => if st < en then some ((cs.drop st).take (en + 1 - st)) else none).bind
              jsonLoadsChars =
          (match lastOf with
            | none => none
            | some en => some ((cs.drop st).take (en + 1 - st))).bind jsonLoadsChars := by
        intro lastOf
        cases lastOf with
        | none => rfl
        | some en =>
            by_cases hlt : st < en
            · simp [hlt]
            · simp only [hlt, if_false, Option.bind_none, Option.bind_some]
              have h01 : en + 1 - st = 0 ∨ en + 1 - st = 1 := by omega
              cases h01 with
              | inl h0 => simp [h0, jsonLoads_nil]
              | inr h1 =>
                  rw [h1, hdrop]
                  simp only [List.take_succ_cons, List.take_zero]
                  simp only [Bool.or_eq_true, decide_eq_true_eq] at hcor
                  cases hcor with
                  | inl hb => rw [hb]; simp [jsonLoads_openBrace]
                  | inr hk => rw [hk]; simp [jsonLoads_openBracket]
      simp only
      exact key _

/-- C2: `extract_json_from_llm_response` applies exactly the claimed
priority order — fenced blocks in order of appearance, then the whole
trimmed text, then the first-delimiter-to-last-delimiter span, else the
parse failure — returning on first success. -/
theorem C2_extract_priority_order (t : String) :
    extract_json_from_llm_response t = extractJsonSpec t := by
  simp only [extract_json_from_llm_response, extractJsonSpec, spanParse_eq_spec]

/-! ### The extractor's failure behaviour (C9) -/

/-- C9: whenever `extract_json_from_llm_response` fails — that is, no
valid JSON can be recovered by any of its strategies — the failure is
the designated `ValueError` carrying exactly the raw response length and
the 200-character preview; no other failure shape is possible. -/
theorem C9_extract_error_payload (t : String) (e : ExtractError)
    (h : extract_json_from_llm_response t = .error e) :
    e = ⟨t.length, String.mk (t.toList.take 200)⟩ := by
  unfold extract_json_from_llm_response at h
  dsimp only at h
  split at h
  · exact absurd h (by simp)
  · exact (Except.error.inj h).symm

/-- Witness for C9 at the spec §8 example input `"not json at all"`. -/
theorem C9_extract_error_payload_witness :
    extract_json_from_llm_response "not json at all" = .error ⟨15, "not json at all"⟩ ∧
      (⟨15, "not json at all"⟩ : ExtractError)
        = ⟨String.length "not json at all", String.mk (List.take 200 (String.toList "not json at all"))⟩ :=
  ⟨by decide, C9_extract_error_payload "not json at all" ⟨15, "not json at all"⟩ (by decide)⟩

/-! ### Round trip of the serializer through the parser (toward C8) -/

theorem char_eq_of_toNat (a b : Char) (h : a.toNat = b.toNat) : a = b :=
  Char.ext (UInt32.ext h)

theorem char_toNat_ofNat (m : Nat) (h : m < 55296) : (Char.ofNat m).toNat = m := by
  unfold Char.ofNat
  split
  · simp [Char.ofNatAux, Char.toNat, UInt32.toNat, UInt32.ofNat', BitVec.toNat_ofNatLt]
  · rename_i hc
    exact absurd (by unfold Nat.isValidChar; left; omega) hc

theorem char_ofNat_toNat (c : Char) (h : c.toNat < 55296) : Char.ofNat c.toNat = c := by
  apply char_eq_of_toNat
  exact char_toNat_ofNat c.toNat h

theorem digitChar_toNat (n : Nat) (h : n < 10) : (digitChar n).toNat = 48 + n := by
  unfold digitChar
  exact char_toNat_ofNat _ (by omega)

theorem isDigit_iff_toNat (c : Char) : c.isDigit = true ↔ 48 ≤ c.toNat ∧ c.toNat ≤ 57 := by
  simp only [Char.isDigit, Bool.and_eq_true, decide_eq_true_eq]
  exact Iff.rfl

theorem digitChar_isDigit (n : Nat) (h : n < 10) : (digitChar n).isDigit = true := by
  rw [isDigit_iff_toNat, digitChar_toNat n h]
  omega

/-- Does a character list start with a decimal digit?  (Used to state
when a serialized number is not extended by what follows it.) -/
def digitHead : List Char → Bool
  | [] => false
  | c :: _ => c.isDigit

theorem digitsVal_append_single (ds : List Char) (c : Char) :
    digitsVal (ds ++ [c]) = digitsVal ds * 10 + (c.toNat - 48) := by
  simp [digitsVal, List.foldl_append]

theorem natDigitsAux_spec : ∀ (f n : Nat), n < f →
    (∀ c ∈ natDigitsAux f n, c.isDigit = true) ∧ natDigitsAux f n ≠ [] ∧
      digitsVal (natDigitsAux f n) = n := by
  intro f
  induction f with
  | zero => omega
  | succ f ih =>
      intro n hn
      by_cases h10 : n < 10
      · refine ⟨?_, by simp [natDigitsAux, h10], ?_⟩
        · intro c hc
          simp [natDigitsAux, h10] at hc
          rw [hc]
          exact digitChar_isDigit n h10
        · simp [natDigitsAux, h10, digitsVal, digitChar_toNat n h10]
      · have hrec : n / 10 < f := by omega
        obtain ⟨hdig, hne, hval⟩ := ih (n / 10) hrec
        refine ⟨?_, ?_, ?_⟩
        · intro c hc
          simp [natDigitsAux, h10] at hc
          cases hc with
          | inl h => exact hdig c h
          | inr h => rw [h]; exact digitChar_isDigit (n % 10) (by omega)
        · simp [natDigitsAux, h10]
        · simp only [natDigitsAux, h10, if_false]
          rw [digitsVal_append_single, hval, digitChar_toNat (n % 10) (by omega)]
          omega

theorem natDigits_spec (n : Nat) :
    (∀ c ∈ natDigits n, c.isDigit = true) ∧ natDigits n ≠ [] ∧
      digitsVal (natDigits n) = n :=
  natDigitsAux_spec (n + 1) n (by omega)

theorem natDigitsAux_head_ne_zero : ∀ (f n : Nat), n < f → 1 ≤ n →
    ∃ c cs, natDigitsAux f n = c :: cs ∧ c.isDigit = true ∧ c ≠ '0' := by
  intro f
  induction f with
  | zero => omega
  | succ f ih =>
      intro n hn h1
      by_cases h10 : n < 10
      · refine ⟨digitChar n, [], by simp [natDigitsAux, h10], digitChar_isDigit n h10, ?_⟩
        intro hc
        have := digitChar_toNat n h10
        rw [hc] at this
        have h0 : ('0' : Char).toNat = 48 := by decide
        omega
      · have hrec : n / 10 < f := by omega
        obtain ⟨c, cs, heq, hdig, hne⟩ := ih (n / 10) hrec (by omega)
        exact ⟨c, cs ++ [digitChar (n % 10)], by simp [natDigitsAux, h10, heq], hdig, hne⟩

theorem takeWhile_digits_append (ds rest : List Char)
    (h1 : ∀ c ∈ ds, c.isDigit = true) (h2 : digitHead rest = false) :
    (ds ++ rest).takeWhile Char.isDigit = ds ∧
      (ds ++ rest).dropWhile Char.isDigit = rest := by
  induction ds with
  | nil =>
      simp only [List.nil_append]
      cases rest with
      | nil => simp
      | cons c r =>
          simp [digitHead] at h2
          simp [List.takeWhile_cons, List.dropWhile_cons, h2]
  | cons d ds ih =>
      have hd : d.isDigit = true := h1 d (by simp)
      obtain ⟨iht, ihd⟩ := ih (fun c hc => h1 c (by simp [hc]))
      simp [List.takeWhile_cons, List.dropWhile_cons, hd, iht, ihd]

theorem parseNatCore_cons (c : Char) (r : List Char) (hne : c ≠ '0') :
    parseNatCore (c :: r) =
      if c.isDigit then
        some (digitsVal ((c :: r).takeWhile Char.isDigit), (c :: r).dropWhile Char.isDigit)
      else none := by
  rw [parseNatCore.eq_def]
  split
  · rename_i heq
    injection heq with h1 h2
    exact absurd h1 hne
  · rename_i t c2 rest heq
    injection heq with h1 h2
    subst h1; subst h2
    rfl
  · rename_i heq
    exact absurd heq (by simp)

theorem parseNatCore_natDigits (n : Nat) (rest : List Char)
    (hrest : digitHead rest = false) :
    parseNatCore (natDigits n ++ rest) = some (n, rest) := by
  obtain ⟨hdig, hne, hval⟩ := natDigits_spec n
  by_cases h0 : n = 0
  · subst h0
    have : natDigits 0 = ['0'] := by decide
    rw [this]
    rfl
  · obtain ⟨c, cs, heq, hcdig, hcne⟩ :=
      natDigitsAux_head_ne_zero (n + 1) n (by omega) (by omega)
    have heq2 : natDigits n = c :: cs := heq
    obtain ⟨ht, hd⟩ := takeWhile_digits_append (natDigits n) rest hdig hrest
    rw [heq2] at ht hd ⊢
    simp only [List.cons_append] at ht hd ⊢
    rw [parseNatCore_cons c (cs ++ rest) hcne, if_pos hcdig, ht, hd]
    rw [← heq2, hval]

theorem parseIntLit_intChars (n : Int) (rest : List Char)
    (hrest : digitHead rest = false) :
    parseIntLit (intChars n ++ rest) = some (n, rest) := by
  by_cases hneg : n < 0
  · simp only [intChars, if_pos hneg, List.cons_append, parseIntLit]
    rw [parseNatCore_natDigits n.natAbs rest hrest]
    simp only [Option.map_some']
    congr 1
    congr 1
    omega
  · simp only [intChars, if_neg hneg]
    obtain ⟨hdig, hne, hval⟩ := natDigits_spec n.natAbs
    obtain ⟨c, cs, heq⟩ : ∃ c cs, natDigits n.natAbs = c :: cs := by
      cases h : natDigits n.natAbs with
      | nil => exact absurd h hne
      | cons c cs => exact ⟨c, cs, rfl⟩
    have hcd : c.isDigit = true := hdig c (by rw [heq]; simp)
    have hcne : c ≠ '-' := by
      intro hc
      rw [isDigit_iff_toNat] at hcd
      rw [hc] at hcd
      have : ('-' : Char).toNat = 45 := by decide
      omega
    rw [parseIntLit.eq_def, heq]
    split
    · rename_i heq2
      injection heq2 with h1 h2
      exact absurd h1 hcne
    · rw [show ((c :: cs) ++ rest) = (c :: cs) ++ rest from rfl, ← heq,
        parseNatCore_natDigits n.natAbs rest hrest]
      simp only [Option.map_some']
      congr 2
      omega

theorem hexVal?_hexChar (n : Nat) (h : n < 16) : hexVal? (hexChar n) = some n := by
  interval_cases n <;> decide

theorem parseStringBody_escString : ∀ (cs rest : List Char),
    parseStringBody (escString cs ++ '"' :: rest) = some (cs, rest)
  | [], rest => by
      rw [escString, List.nil_append, parseStringBody.eq_def]
      simp
  | c :: cs, rest => by
      have ih := parseStringBody_escString cs rest
      by_cases hq : c = '"'
      · subst hq
        simp only [escString, escChar, if_pos rfl, List.cons_append, List.nil_append]
        rw [parseStringBody.eq_def]
        simp [shortEscape?, ih]
      · by_cases hbs : c = '\\'
        · subst hbs
          simp only [escString, escChar, List.cons_append, List.nil_append]
          norm_num
          rw [parseStringBody.eq_def]
          simp [shortEscape?, ih]
        · by_cases hn : c = '\n'
          · subst hn
            simp only [escString, escChar, List.cons_append, List.nil_append]
            norm_num
            rw [parseStringBody.eq_def]
            simp [shortEscape?, ih]
          · by_cases htb : c = '\t'
            · subst htb
              simp only [escString, escChar, List.cons_append, List.nil_append]
              norm_num
              rw [parseStringBody.eq_def]
              simp [shortEscape?, ih]
            · by_cases hr : c = '\r'
              · subst hr
                simp only [escString, escChar, List.cons_append, List.nil_append]
                norm_num
                rw [parseStringBody.eq_def]
                simp [shortEscape?, ih]
              · by_cases hb8 : c = '\x08'
                · subst hb8
                  simp only [escString, escChar, List.cons_append, List.nil_append]
                  norm_num
                  rw [parseStringBody.eq_def]
                  simp [shortEscape?, ih]
                · by_cases hf : c = '\x0c'
                  · subst hf
                    simp only [escString, escChar, List.cons_append, List.nil_append]
                    norm_num
                    rw [parseStringBody.eq_def]
                    simp [shortEscape?, ih]
                  · by_cases hlt : c.toNat < 32
                    · have e1 : c.toNat / 16 < 16 := by omega
                      have e2 : c.toNat % 16 < 16 := by omega
                      simp only [escString, escChar, hq, hbs, hn, htb, hr, hb8, hf,
                        if_false, if_pos hlt, List.cons_append, List.nil_append]
                      rw [parseStringBody.eq_def]
                      have hv0 : hexVal? '0' = some 0 := by decide
                      have hn2 : ((0 * 16 + 0) * 16 + c.toNat / 16) * 16 + c.toNat % 16
                          = c.toNat := by omega
                      simp only [hexVal?_hexChar _ e1, hexVal?_hexChar _ e2, hv0, hn2]
                      norm_num
                      rw [if_neg (show ¬(55296 ≤ c.toNat ∧ c.toNat < 57344) by omega)]
                      rw [ih]
                      simp [char_ofNat_toNat c (by omega)]
                    · simp only [escString, escChar, hq, hbs, hn, htb, hr, hb8, hf,
                        if_false, if_neg hlt, List.cons_append, List.nil_append]
                      rw [parseStringBody.eq_def]
                      simp [hq, hbs, hlt, ih]

mutual

/-- Fuel needed by `parseValue` to consume the serialization of `v`. -/
def needV : Json → Nat
  | .jnull => 1
  | .jbool _ => 1
  | .jnum _ => 1
  | .jstr _ => 1
  | .jarr a => 1 + needA a
  | .jobj o => 1 + needO o

/-- Fuel needed by `parseArrElems`/`parseArrRest` on serialized elements. -/
def needA : JArr → Nat
  | .nil => 1
  | .cons h t => 1 + max (needV h) (needA t)

/-- Fuel needed by `parseObjElems`/`parseObjRest` on serialized members. -/
def needO : JObj → Nat
  | .nil => 1
  | .cons _ v t => 1 + max (needV v) (needO t)

end

theorem needV_pos (v : Json) : 1 ≤ needV v := by
  cases v <;> simp [needV]

theorem jsonWS_of_pyWS (c : Char) (h : pyWS c = false) : jsonWS c = false := by
  simp [pyWS] at h
  simp [jsonWS, h]

theorem digit_head_props (c : Char) (h : c.isDigit = true) :
    pyWS c = false ∧ c ≠ ']' ∧ c ≠ '\x7d' ∧ c ≠ 'n' ∧ c ≠ 't' ∧ c ≠ 'f'
      ∧ c ≠ '"' ∧ c ≠ '[' ∧ c ≠ '\x7b' := by
  rw [isDigit_iff_toNat] at h
  have H : ∀ d : Char, d.toNat < 48 ∨ 57 < d.toNat → c ≠ d := by
    intro d hd he
    rw [he] at h
    omega
  refine ⟨?_, H ']' (by decide), H '\x7d' (by decide), H 'n' (by decide),
    H 't' (by decide), H 'f' (by decide), H '"' (by decide), H '[' (by decide),
    H '\x7b' (by decide)⟩
  simp [pyWS, H ' ' (by decide), H '\t' (by decide), H '\n' (by decide),
    H '\r' (by decide), H '\x0b' (by decide), H '\x0c' (by decide)]

/-- The serialization of any value is non-empty, starts with a
non-whitespace character that is not a closing delimiter, and that
selects the right branch of `parseValue`. -/
theorem dumpChars_head (v : Json) : ∃ c cs, Json.dumpChars v = c :: cs ∧
    pyWS c = false ∧ c ≠ ']' ∧ c ≠ '\x7d' := by
  cases v with
  | jnull => exact ⟨'n', _, rfl, by decide, by decide, by decide⟩
  | jbool b => cases b with
      | true => refine ⟨'t', _, rfl, ?_, ?_, ?_⟩ <;> decide
      | false => refine ⟨'f', _, rfl, ?_, ?_, ?_⟩ <;> decide
  | jnum n =>
      simp only [Json.dumpChars, intChars]
      by_cases hneg : n < 0
      · exact ⟨'-', _, by rw [if_pos hneg], by decide, by decide, by decide⟩
      · rw [if_neg hneg]
        obtain ⟨hdig, hne, _⟩ := natDigits_spec n.natAbs
        obtain ⟨c, cs, heq⟩ : ∃ c cs, natDigits n.natAbs = c :: cs := by
          cases hh : natDigits n.natAbs with
          | nil => exact absurd hh hne
          | cons c cs => exact ⟨c, cs, rfl⟩
        have hc := digit_head_props c (hdig c (by rw [heq]; simp))
        exact ⟨c, cs, heq, hc.1, hc.2.1, hc.2.2.1⟩
  | jstr s => exact ⟨'"', _, rfl, by decide, by decide, by decide⟩
  | jarr a => cases a with
      | nil => exact ⟨'[', _, rfl, by decide, by decide, by decide⟩
      | cons h t => exact ⟨'[', _, rfl, by decide, by decide, by decide⟩
  | jobj o => cases o with
      | nil => exact ⟨'\x7b', _, rfl, by decide, by decide, by decide⟩
      | cons k v2 t => exact ⟨'\x7b', _, rfl, by decide, by decide, by decide⟩

theorem digitHead_arr_tail (t : JArr) (rest : List Char) :
    digitHead (JArr.dumpRest t ++ ']' :: rest) = false := by
  cases t with
  | nil => simp [JArr.dumpRest, digitHead]
  | cons h t2 => simp [JArr.dumpRest, digitHead]

theorem digitHead_obj_tail (t : JObj) (rest : List Char) :
    digitHead (JObj.dumpRest t ++ '\x7d' :: rest) = false := by
  cases t with
  | nil => simp [JObj.dumpRest, digitHead]
  | cons k v t2 => simp [JObj.dumpRest, digitHead]

theorem dump_null : Json.dumpChars .jnull = ['n', 'u', 'l', 'l'] := rfl

theorem dump_true : Json.dumpChars (.jbool true) = ['t', 'r', 'u', 'e'] := rfl

theorem dump_false : Json.dumpChars (.jbool false) = ['f', 'a', 'l', 's', 'e'] := rfl

theorem dump_num (n : Int) : Json.dumpChars (.jnum n) = intChars n := rfl

theorem dump_str (s : String) :
    Json.dumpChars (.jstr s) = '"' :: (escString s.toList ++ ['"']) := rfl

theorem dump_arr_nil : Json.dumpChars (.jarr .nil) = ['[', ']'] := rfl

theorem dump_arr_cons (h : Json) (t : JArr) :
    Json.dumpChars (.jarr (.cons h t))
      = '[' :: (Json.dumpChars h ++ JArr.dumpRest t ++ [']']) := rfl

theorem dump_obj_nil : Json.dumpChars (.jobj .nil) = ['\x7b', '\x7d'] := rfl

theorem dump_obj_cons (k : String) (v : Json) (t : JObj) :
    Json.dumpChars (.jobj (.cons k v t))
      = '\x7b' :: ('"' :: (escString k.toList ++ ['"', ':']) ++ Json.dumpChars v
          ++ JObj.dumpRest t ++ ['\x7d']) := rfl

theorem dumpRestA_nil : JArr.dumpRest .nil = [] := rfl

theorem dumpRestA_cons (h : Json) (t : JArr) :
    JArr.dumpRest (.cons h t) = ',' :: (Json.dumpChars h ++ JArr.dumpRest t) := rfl

theorem dumpRestO_nil : JObj.dumpRest .nil = [] := rfl

theorem dumpRestO_cons (k : String) (v : Json) (t : JObj) :
    JObj.dumpRest (.cons k v t)
      = ',' :: ('"' :: (escString k.toList ++ ['"', ':']) ++ Json.dumpChars v
          ++ JObj.dumpRest t) := rfl

theorem string_mk_toList (s : String) : String.mk s.toList = s := rfl

theorem JArr.ofList_toList : ∀ a : JArr, JArr.ofList a.toList = a
  | .nil => rfl
  | .cons h t => by simp [JArr.toList, JArr.ofList, JArr.ofList_toList t]

/-- The serialized elements of an array after its opening bracket. -/
def arrInner : JArr → List Char
  | .nil => [']']
  | .cons h t => Json.dumpChars h ++ JArr.dumpRest t ++ [']']

/-- The serialized members of an object after its opening brace. -/
def objInner : JObj → List Char
  | .nil => ['\x7d']
  | .cons k v t =>
      '"' :: (escString k.toList ++ ['"', ':']) ++ Json.dumpChars v
        ++ JObj.dumpRest t ++ ['\x7d']

theorem dump_arr (a : JArr) : Json.dumpChars (.jarr a) = '[' :: arrInner a := by
  cases a <;> rfl

theorem dump_obj (o : JObj) : Json.dumpChars (.jobj o) = '\x7b' :: objInner o := by
  cases o <;> rfl

mutual

theorem parseValue_dump : ∀ (v : Json) (f : Nat) (rest : List Char),
    needV v ≤ f → (∀ n, v = Json.jnum n → digitHead rest = false) →
    parseValue f (Json.dumpChars v ++ rest) = some (v, rest)
  | .jnull, f, rest, hf, _ => by
      cases f with
      | zero => simp [needV] at hf
      | succ f =>
          rw [dump_null, parseValue.eq_def]
          simp [jsonWS, expectChars]
  | .jbool true, f, rest, hf, _ => by
      cases f with
      | zero => simp [needV] at hf
      | succ f =>
          rw [dump_true, parseValue.eq_def]
          simp [jsonWS, expectChars]
  | .jbool false, f, rest, hf, _ => by
      cases f with
      | zero => simp [needV] at hf
      | succ f =>
          rw [dump_false, parseValue.eq_def]
          simp [jsonWS, expectChars]
  | .jnum n, f, rest, hf, hnum => by
      cases f with
      | zero => simp [needV] at hf
      | succ f =>
          have hdr : digitHead rest = false := hnum n rfl
          have hIL := parseIntLit_intChars n rest hdr
          rw [dump_num]
          by_cases hneg : n < 0
          · rw [show intChars n = '-' :: natDigits n.natAbs from by
              simp [intChars, hneg]]
            rw [show intChars n = '-' :: natDigits n.natAbs from by
              simp [intChars, hneg]] at hIL
            rw [parseValue.eq_def]
            simp only [List.cons_append]
            rw [List.dropWhile_cons_of_neg (by simp [jsonWS])]
            simp only [show ('-' = 'n') = False by simp, show ('-' = 't') = False by simp,
              show ('-' = 'f') = False by simp, show ('-' = '"') = False by simp,
              show ('-' = '[') = False by simp, show ('-' = '\x7b') = False by simp,
              if_false]
            rw [← List.cons_append, hIL]
            rfl
          · rw [show intChars n = natDigits n.natAbs from by simp [intChars, hneg]]
            rw [show intChars n = natDigits n.natAbs from by simp [intChars, hneg]] at hIL
            obtain ⟨hdig, hne2, _⟩ := natDigits_spec n.natAbs
            obtain ⟨c, cs, heq⟩ : ∃ c cs, natDigits n.natAbs = c :: cs := by
              cases hh : natDigits n.natAbs with
              | nil => exact absurd hh hne2
              | cons c cs => exact ⟨c, cs, rfl⟩
            obtain ⟨hws, _, _, hcn, hct, hcf, hcq, hck, hcb⟩ :=
              digit_head_props c (hdig c (by rw [heq]; simp))
            rw [heq]
            rw [heq] at hIL
            rw [parseValue.eq_def]
            simp only [List.cons_append]
            rw [List.dropWhile_cons_of_neg (by simp [jsonWS_of_pyWS c hws])]
            simp only [hcn, hct, hcf, hcq, hck, hcb, if_false]
            rw [← List.cons_append, hIL]
            rfl
  | .jstr s, f, rest, hf, _ => by
      cases f with
      | zero => simp [needV] at hf
      | succ f =>
          rw [dump_str, parseValue.eq_def]
          simp only [List.cons_append]
          rw [List.dropWhile_cons_of_neg (by simp [jsonWS])]
          simp only [show ('"' = 'n') = False by simp, show ('"' = 't') = False by simp,
            show ('"' = 'f') = False by simp, show ('"' = '"') = True by simp,
            if_false, if_true]
          rw [List.append_assoc, List.singleton_append, parseStringBody_escString s.toList rest]
          simp [string_mk_toList]
  | .jarr a, f, rest, hf, _ => by
      cases f with
      | zero => simp [needV] at hf
      | succ f =>
          have ha : needA a ≤ f := by
            simp [needV] at hf
            omega
          rw [dump_arr, parseValue.eq_def]
          simp only [List.cons_append]
          rw [List.dropWhile_cons_of_neg (by simp [jsonWS])]
          simp only [show ('[' = 'n') = False by simp, show ('[' = 't') = False by simp,
            show ('[' = 'f') = False by simp, show ('[' = '"') = False by simp,
            show ('[' = '[') = True by simp, if_false, if_true]
          rw [parseArrElems_dump a f rest ha]
          simp [JArr.ofList_toList]
  | .jobj o, f, rest, hf, _ => by
      cases f with
      | zero => simp [needV] at hf
      | succ f =>
          have ho : needO o ≤ f := by
            simp [needV] at hf
            omega
          rw [dump_obj, parseValue.eq_def]
          simp only [List.cons_append]
          rw [List.dropWhile_cons_of_neg (by simp [jsonWS])]
          simp only [show ('\x7b' = 'n') = False by simp, show ('\x7b' = 't') = False by simp,
            show ('\x7b' = 'f') = False by simp, show ('\x7b' = '"') = False by simp,
            show ('\x7b' = '[') = False by simp, show ('\x7b' = '\x7b') = True by simp,
            if_false, if_true]
          rw [parseObjElems_dump o f rest ho]
          rfl

theorem parseArrElems_dump : ∀ (a : JArr) (f : Nat) (rest : List Char), needA a ≤ f →
    parseArrElems f (arrInner a ++ rest) = some (a.toList, rest)
  | .nil, f, rest, hf => by
      cases f with
      | zero => simp [needA] at hf
      | succ f =>
          rw [parseArrElems.eq_def]
          simp [arrInner, jsonWS, JArr.toList]
  | .cons h t, f, rest, hf => by
      cases f with
      | zero => simp [needA] at hf
      | succ f =>
          have hv : needV h ≤ f := by
            simp [needA] at hf
            omega
          have ht : needA t ≤ f := by
            simp [needA] at hf
            omega
          obtain ⟨c, cs, heq, hws, hbr, _⟩ := dumpChars_head h
          rw [parseArrElems.eq_def]
          simp only [arrInner, heq, List.cons_append, List.append_assoc,
            List.nil_append]
          rw [List.dropWhile_cons_of_neg (by simp [jsonWS_of_pyWS c hws])]
          simp only [hbr, if_false]
          rw [show (c :: (cs ++ (JArr.dumpRest t ++ (']' :: rest))))
              = Json.dumpChars h ++ (JArr.dumpRest t ++ ']' :: rest) from by
            rw [heq]; simp]
          rw [parseValue_dump h f (JArr.dumpRest t ++ ']' :: rest) hv
            (fun n _ => digitHead_arr_tail t rest)]
          dsimp only
          rw [parseArrRest_dump t f rest ht]
          simp [JArr.toList]

theorem parseArrRest_dump : ∀ (t : JArr) (f : Nat) (rest : List Char), needA t ≤ f →
    parseArrRest f (JArr.dumpRest t ++ ']' :: rest) = some (t.toList, rest)
  | .nil, f, rest, hf => by
      cases f with
      | zero => simp [needA] at hf
      | succ f =>
          rw [parseArrRest.eq_def]
          simp [dumpRestA_nil, jsonWS, JArr.toList]
  | .cons h t, f, rest, hf => by
      cases f with
      | zero => simp [needA] at hf
      | succ f =>
          have hv : needV h ≤ f := by
            simp [needA] at hf
            omega
          have ht : needA t ≤ f := by
            simp [needA] at hf
            omega
          rw [parseArrRest.eq_def]
          simp only [dumpRestA_cons, List.cons_append, List.append_assoc,
            List.nil_append]
          rw [List.dropWhile_cons_of_neg (by simp [jsonWS])]
          simp only [show (',' = ']') = False by simp, show (',' = ',') = True by simp,
            if_false, if_true]
          rw [parseValue_dump h f (JArr.dumpRest t ++ ']' :: rest) hv
            (fun n _ => digitHead_arr_tail t rest)]
          dsimp only
          rw [parseArrRest_dump t f rest ht]
          simp [JArr.toList]

theorem parseObjElems_dump : ∀ (o : JObj) (f : Nat) (rest : List Char), needO o ≤ f →
    parseObjElems f (objInner o ++ rest) = some (o, rest)
  | .nil, f, rest, hf => by
      cases f with
      | zero => simp [needO] at hf
      | succ f =>
          rw [parseObjElems.eq_def]
          simp [objInner, jsonWS]
  | .cons k v t, f, rest, hf => by
      cases f with
      | zero => simp [needO] at hf
      | succ f =>
          have hv : needV v ≤ f := by
            simp [needO] at hf
            omega
          have ht : needO t ≤ f := by
            simp [needO] at hf
            omega
          rw [parseObjElems.eq_def]
          simp only [objInner, List.cons_append, List.append_assoc,
            List.nil_append]
          rw [List.dropWhile_cons_of_neg (by simp [jsonWS])]
          simp only [show ('"' = '\x7d') = False by simp, show ('"' = '"') = True by simp,
            if_false, if_true]
          rw [parseStringBody_escString k.toList
            (':' :: (Json.dumpChars v ++ (JObj.dumpRest t ++ '\x7d' :: rest)))]
          dsimp only
          rw [List.dropWhile_cons_of_neg (by simp [jsonWS])]
          simp only [show (':' = ':') = True by simp, if_true]
          rw [parseValue_dump v f (JObj.dumpRest t ++ '\x7d' :: rest) hv
            (fun n _ => digitHead_obj_tail t rest)]
          dsimp only
          rw [parseObjRest_dump t f rest ht]
          simp [string_mk_toList]

theorem parseObjRest_dump : ∀ (t : JObj) (f : Nat) (rest : List Char), needO t ≤ f →
    parseObjRest f (JObj.dumpRest t ++ '\x7d' :: rest) = some (t, rest)
  | .nil, f, rest, hf => by
      cases f with
      | zero => simp [needO] at hf
      | succ f =>
          rw [parseObjRest.eq_def]
          simp [dumpRestO_nil, jsonWS]
  | .cons k v t, f, rest, hf => by
      cases f with
      | zero => simp [needO] at hf
      | succ f =>
          have hv : needV v ≤ f := by
            simp [needO] at hf
            omega
          have ht : needO t ≤ f := by
            simp [needO] at hf
            omega
          rw [parseObjRest.eq_def]
          simp only [dumpRestO_cons, List.cons_append, List.append_assoc,
            List.nil_append]
          rw [List.dropWhile_cons_of_neg (by simp [jsonWS])]
          simp only [show (',' = '\x7d') = False by simp, show (',' = ',') = True by simp,
            if_false, if_true]
          rw [List.dropWhile_cons_of_neg (by simp [jsonWS])]
          simp only [show ('"' = '"') = True by simp, if_true]
          rw [parseStringBody_escString k.toList
            (':' :: (Json.dumpChars v ++ (JObj.dumpRest t ++ '\x7d' :: rest)))]
          dsimp only
          rw [List.dropWhile_cons_of_neg (by simp [jsonWS])]
          simp only [show (':' = ':') = True by simp, if_true]
          rw [parseValue_dump v f (JObj.dumpRest t ++ '\x7d' :: rest) hv
            (fun n _ => digitHead_obj_tail t rest)]
          dsimp only
          rw [parseObjRest_dump t f rest ht]
          simp [string_mk_toList]

end

theorem arrInner_len_ge (a : JArr) :
    (JArr.dumpRest a).length ≤ (arrInner a).length := by
  cases a with
  | nil => simp [arrInner, JArr.dumpRest]
  | cons h t => simp [arrInner, dumpRestA_cons]; omega

theorem objInner_len_ge (o : JObj) :
    (JObj.dumpRest o).length ≤ (objInner o).length := by
  cases o with
  | nil => simp [objInner, JObj.dumpRest]
  | cons k v t => simp [objInner, dumpRestO_cons]; omega

mutual

theorem needV_le : ∀ v : Json, needV v ≤ 2 * (Json.dumpChars v).length + 1
  | .jnull => by simp [needV]
  | .jbool b => by cases b <;> simp [needV]
  | .jnum n => by simp [needV]
  | .jstr s => by simp [needV]
  | .jarr a => by
      have h1 := needA_le a
      have h2 := arrInner_len_ge a
      rw [dump_arr]
      simp only [needV, List.length_cons]
      omega
  | .jobj o => by
      have h1 := needO_le o
      have h2 := objInner_len_ge o
      rw [dump_obj]
      simp only [needV, List.length_cons]
      omega

theorem needA_le : ∀ a : JArr, needA a ≤ 2 * (JArr.dumpRest a).length + 2
  | .nil => by simp [needA, JArr.dumpRest]
  | .cons h t => by
      have h1 := needV_le h
      have h2 := needA_le t
      simp only [needA, dumpRestA_cons, List.length_cons, List.length_append]
      omega

theorem needO_le : ∀ o : JObj, needO o ≤ 2 * (JObj.dumpRest o).length + 2
  | .nil => by simp [needO, JObj.dumpRest]
  | .cons k v t => by
      have h1 := needV_le v
      have h2 := needO_le t
      simp only [needO, dumpRestO_cons, List.length_cons, List.length_append]
      omega

end

/-- Round trip: `json.loads` recovers any serialized value. -/
theorem jsonLoads_dump (v : Json) : jsonLoadsChars (Json.dumpChars v) = some v := by
  have h := parseValue_dump v (2 * (Json.dumpChars v).length + 2) []
    (by have := needV_le v; omega) (fun n _ => rfl)
  rw [List.append_nil] at h
  unfold jsonLoadsChars
  rw [h]
  simp [List.dropWhile]

/-! ### Fenced wrapping of a serialized value (toward C8) -/

theorem startsWithTriple_cons3 (a b c : Char) (r : List Char) :
    startsWithTriple (a :: b :: c :: r)
      = (decide (a = '`') && decide (b = '`') && decide (c = '`')) := by
  rw [startsWithTriple.eq_def]
  split
  · rename_i heq
    injection heq with h1 h2
    injection h2 with h2 h3
    injection h3 with h3 _
    subst h1; subst h2; subst h3
    simp
  · rename_i hno
    by_cases ha : a = '`'
    · by_cases hb : b = '`'
      · by_cases hc : c = '`'
        · subst ha; subst hb; subst hc
          exact absurd rfl (hno r)
        · simp [hc]
      · simp [hb]
    · simp [ha]

theorem startsWithTriple_one (a : Char) : startsWithTriple [a] = false := by
  rw [startsWithTriple.eq_def]
  split
  · rename_i heq
    simp at heq
  · rfl

theorem startsWithTriple_two (a b : Char) : startsWithTriple [a, b] = false := by
  rw [startsWithTriple.eq_def]
  split
  · rename_i heq
    simp at heq
  · rfl

theorem hasTriple_cons (c : Char) (cs : List Char) :
    hasTriple (c :: cs) = (startsWithTriple (c :: cs) || hasTriple cs) := by
  simp only [hasTriple, splitFence]
  by_cases h : startsWithTriple (c :: cs) = true
  · simp [h]
  · simp only [Bool.not_eq_true] at h
    simp [h, Option.isSome_map]

theorem splitFence_mid : ∀ (S ys : List Char), hasTriple S = false →
    splitFence (S ++ '\n' :: '`' :: '`' :: '`' :: ys) = some (S ++ ['\n'], ys)
  | [], ys, _ => by
      simp only [List.nil_append]
      rw [splitFence]
      rw [startsWithTriple_cons3]
      norm_num
      rw [splitFence]
      rw [startsWithTriple_cons3]
      simp [List.drop]
  | c :: S2, ys, h => by
      rw [hasTriple_cons] at h
      simp only [Bool.or_eq_false_iff] at h
      obtain ⟨hsw, hS2⟩ := h
      have hnotsw : startsWithTriple (c :: (S2 ++ '\n' :: '`' :: '`' :: '`' :: ys)) = false := by
        cases S2 with
        | nil =>
            simp only [List.nil_append]
            rw [startsWithTriple_cons3]
            simp
        | cons d S3 =>
            cases S3 with
            | nil =>
                simp only [List.cons_append, List.nil_append]
                rw [startsWithTriple_cons3]
                simp
            | cons e S4 =>
                simp only [List.cons_append]
                rw [startsWithTriple_cons3]
                rw [show (c :: d :: e :: S4) = c :: d :: e :: S4 from rfl] at hsw
                rw [startsWithTriple_cons3] at hsw
                exact hsw
      rw [List.cons_append, splitFence, hnotsw]
      simp only [Bool.false_eq_true, if_false]
      rw [splitFence_mid S2 ys hS2]
      simp

theorem findBlocksAux_nil : ∀ n : Nat, findBlocksAux n [] = []
  | 0 => rfl
  | _ + 1 => rfl

theorem trimBoth_eq_of (cs : List Char)
    (hhead : ∃ c l, cs = c :: l ∧ pyWS c = false)
    (hlast : ∃ c l, cs = l ++ [c] ∧ pyWS c = false) : trimBoth cs = cs := by
  obtain ⟨c, l, heq, hc⟩ := hhead
  obtain ⟨c2, l2, heq2, hc2⟩ := hlast
  unfold trimBoth
  rw [heq, List.dropWhile_cons_of_neg (by simp [hc]), ← heq, heq2]
  rw [List.reverse_append, List.reverse_singleton, List.singleton_append]
  rw [List.dropWhile_cons_of_neg (by simp [hc2])]
  simp

theorem trimBoth_sandwich (S : List Char)
    (hhead : ∃ c l, S = c :: l ∧ pyWS c = false)
    (hlast : ∃ c l, S = l ++ [c] ∧ pyWS c = false) :
    trimBoth ('\n' :: (S ++ ['\n'])) = S := by
  obtain ⟨c, l, heq, hc⟩ := hhead
  obtain ⟨c2, l2, heq2, hc2⟩ := hlast
  unfold trimBoth
  rw [List.dropWhile_cons_of_pos (by simp [pyWS])]
  rw [heq, List.cons_append, List.dropWhile_cons_of_neg (by simp [hc]), ← List.cons_append, ← heq]
  rw [List.reverse_append, List.reverse_singleton, List.singleton_append]
  rw [List.dropWhile_cons_of_pos (by simp [pyWS])]
  rw [heq2, List.reverse_append, List.reverse_singleton, List.singleton_append]
  rw [List.dropWhile_cons_of_neg (by simp [hc2])]
  simp

theorem dumpChars_last (v : Json) : ∃ c cs, Json.dumpChars v = cs ++ [c] ∧ pyWS c = false := by
  cases v with
  | jnull => exact ⟨'l', ['n', 'u', 'l'], rfl, by decide⟩
  | jbool b => cases b with
      | true => exact ⟨'e', ['t', 'r', 'u'], rfl, by decide⟩
      | false => exact ⟨'e', ['f', 'a', 'l', 's'], rfl, by decide⟩
  | jnum n =>
      obtain ⟨hdig, hne, _⟩ := natDigits_spec n.natAbs
      have hsplit : natDigits n.natAbs
          = (natDigits n.natAbs).dropLast ++ [(natDigits n.natAbs).getLast hne] :=
        (List.dropLast_append_getLast hne).symm
      have hlastdig : ((natDigits n.natAbs).getLast hne).isDigit = true :=
        hdig _ (List.getLast_mem hne)
      have hprops := digit_head_props _ hlastdig
      rw [dump_num]
      by_cases hneg : n < 0
      · refine ⟨(natDigits n.natAbs).getLast hne, '-' :: (natDigits n.natAbs).dropLast, ?_, hprops.1⟩
        simp only [intChars, if_pos hneg, List.cons_append]
        rw [← hsplit]
      · refine ⟨(natDigits n.natAbs).getLast hne, (natDigits n.natAbs).dropLast, ?_, hprops.1⟩
        simp only [intChars, if_neg hneg]
        exact hsplit
  | jstr s =>
      refine ⟨'"', '"' :: escString s.toList, ?_, by decide⟩
      rw [dump_str]
      simp
  | jarr a => cases a with
      | nil => exact ⟨']', ['['], rfl, by decide⟩
      | cons h t =>
          refine ⟨']', '[' :: (Json.dumpChars h ++ JArr.dumpRest t), ?_, by decide⟩
          rw [dump_arr_cons]
          simp
  | jobj o => cases o with
      | nil => exact ⟨'\x7d', ['\x7b'], rfl, by decide⟩
      | cons k v t =>
          refine ⟨'\x7d', '\x7b' :: ('"' :: (escString k.toList ++ ['"', ':'])
            ++ Json.dumpChars v ++ JObj.dumpRest t), ?_, by decide⟩
          rw [dump_obj_cons]
          simp

/-- Scanning the fenced wrapping of a triple-backtick-free payload finds
exactly one block whose capture is the payload itself. -/
theorem findBlocks_fenced (S : List Char) (hS : hasTriple S = false)
    (hhead : ∃ c l, S = c :: l ∧ pyWS c = false)
    (hlast : ∃ c l, S = l ++ [c] ∧ pyWS c = false) :
    findCodeBlocks ('`' :: '`' :: '`' :: 'j' :: 's' :: 'o' :: 'n' :: '\n'
      :: (S ++ ['\n', '`', '`', '`'])) = [S] := by
  unfold findCodeBlocks
  rw [findBlocksAux.eq_def]
  simp only [List.length_cons]
  rw [splitFence]
  rw [startsWithTriple_cons3]
  norm_num
  rw [show dropJsonTag ('j' :: 's' :: 'o' :: 'n' :: '\n' :: (S ++ ['\n', '`', '`', '`']))
      = '\n' :: (S ++ ['\n', '`', '`', '`']) from by simp [dropJsonTag]]
  have hmid : splitFence (('\n' :: S) ++ '\n' :: '`' :: '`' :: '`' :: [])
      = some (('\n' :: S) ++ ['\n'], []) := by
    apply splitFence_mid
    rw [hasTriple_cons]
    rw [show startsWithTriple ('\n' :: S) = false from ?_]
    · simp [hS]
    · cases S with
      | nil => rfl
      | cons a S2 =>
          cases S2 with
          | nil => exact startsWithTriple_two '\n' a
          | cons b S3 =>
              rw [startsWithTriple_cons3]
              simp
  rw [show ('\n' :: (S ++ ['\n', '`', '`', '`']))
      = ('\n' :: S) ++ '\n' :: '`' :: '`' :: '`' :: [] from by simp]
  rw [hmid]
  rw [show (('\n' :: S) ++ ['\n']) = '\n' :: (S ++ ['\n']) from by simp]
  dsimp only
  rw [trimBoth_sandwich S hhead hlast]
  rw [findBlocksAux_nil]

/-- C8 (amended): for every JSON value `v` whose serialization contains
no triple backtick, extracting from the fenced wrapping
three-backticks-json, newline, `serialize(v)`, newline, three backticks
returns a value deep-equal to `v`. -/
theorem C8_extract_roundtrip (v : Json)
    (h : hasTriple (Json.dumpChars v) = false) :
    extract_json_from_llm_response ("```json\n" ++ serializeJson v ++ "\n```") = .ok v := by
  have htext : ("```json\n" ++ serializeJson v ++ "\n```").toList
      = '`' :: '`' :: '`' :: 'j' :: 's' :: 'o' :: 'n' :: '\n'
        :: (Json.dumpChars v ++ ['\n', '`', '`', '`']) := rfl
  have hhead : ∃ c l, Json.dumpChars v = c :: l ∧ pyWS c = false := by
    obtain ⟨c, cs, heq, hws, _, _⟩ := dumpChars_head v
    exact ⟨c, cs, heq, hws⟩
  have hblocks := findBlocks_fenced (Json.dumpChars v) h hhead (dumpChars_last v)
  have hclean : trimBoth ('`' :: '`' :: '`' :: 'j' :: 's' :: 'o' :: 'n' :: '\n'
      :: (Json.dumpChars v ++ ['\n', '`', '`', '`']))
      = '`' :: '`' :: '`' :: 'j' :: 's' :: 'o' :: 'n' :: '\n'
        :: (Json.dumpChars v ++ ['\n', '`', '`', '`']) := by
    apply trimBoth_eq_of
    · exact ⟨'`', _, rfl, by decide⟩
    · refine ⟨'`', '`' :: '`' :: '`' :: 'j' :: 's' :: 'o' :: 'n' :: '\n'
        :: (Json.dumpChars v ++ ['\n', '`', '`']), ?_, by decide⟩
      simp
  unfold extract_json_from_llm_response
  rw [htext, hclean]
  dsimp only
  rw [hblocks]
  rw [show firstParse [Json.dumpChars v] = some v from by
    unfold firstParse
    rw [jsonLoads_dump v]]
  rfl

/-- C8 counterexample: for the JSON string value consisting of three
backticks, the fence-wrapped serialization does not extract back to the
value — the first closing fence found lies inside the string literal,
nothing parses, and the extractor raises its parse failure. -/
theorem C8_counterexample :
    extract_json_from_llm_response
        ("```json\n" ++ serializeJson (Json.jstr "```") ++ "\n```")
      = .error ⟨17, "```json\n\"```\"\n```"⟩ ∧
    (Except.error ⟨17, "```json\n\"```\"\n```"⟩ : Except ExtractError Json)
      ≠ .ok (Json.jstr "```") := by
  constructor
  · decide
  · decide

/-- Witness for the amended C8 at a concrete object value. -/
theorem C8_extract_roundtrip_witness :
    hasTriple (Json.dumpChars (Json.jobj (.cons "a" (.jnum 1) .nil))) = false ∧
      extract_json_from_llm_response ("```json\n"
          ++ serializeJson (Json.jobj (.cons "a" (.jnum 1) .nil)) ++ "\n```")
        = .ok (Json.jobj (.cons "a" (.jnum 1) .nil)) :=
  ⟨by decide, C8_extract_roundtrip (Json.jobj (.cons "a" (.jnum 1) .nil)) (by decide)⟩

/-! ### The evidence validator (`utils/evidence_validator.py`)

`validate_and_enrich_evidence` (lines 220 to 319) is embedded with the
external service as an oracle: `svc i` is the outcome of the Gemini call
made for the `i`-th batch — either the raw response text or a raised
exception.  Exceptions inside the per-batch `try` block are modelled by
`Except`; the function also returns how many service calls were made.

When the reply shape is unrecognized the source re-runs the merge
policy on the *same* dict objects as the original batch
(`batch_results = batch`, line 266), and line 301 replaces each
processed interactor's `functions` in place, so a mid-merge exception
makes the `except` branch re-append already-mutated dicts.  The model
captures this with an explicit state-passing merge
(`mergeBatchAliased`) used for that path. -/

/-- The Python exception classes that can surface in the embedded code. -/
inductive PyExn where
  | attrError : PyExn
  | typeError : PyExn
  | valueError : PyExn
  | svcError : PyExn
  deriving DecidableEq

/-- Python `int(x)` on a JSON value. -/
def pyInt : Json → Except PyExn Int
  | .jnum n => .ok n
  | .jbool b => .ok (if b then 1 else 0)
  | .jstr s =>
      let t := trimBoth s.toList
      let core : List Char → Except PyExn Int := fun u =>
        let ds := u.takeWhile Char.isDigit
        if ds ≠ [] ∧ u.dropWhile Char.isDigit = [] then .ok (digitsVal ds)
        else .error .valueError
      match t with
      | '-' :: r => (core r).map (fun n => -n)
      | '+' :: r => core r
      | _ => core t
  | _ => .error .typeError

/-- Python `for x in v` where the loop body immediately calls
`x.get(...)`: a list yields its elements; an empty string or dict yields
no iterations; a non-empty string or dict yields a non-dict first item
whose `.get` raises `AttributeError`; other values fail at the `for`
itself with `TypeError`. -/
def iterVal : Json → Except PyExn (List Json)
  | .jarr a => .ok a.toList
  | .jstr s => if s = "" then .ok [] else .error .attrError
  | .jobj .nil => .ok []
  | .jobj _ => .error .attrError
  | _ => .error .typeError

/-- The per-claim decision of the merge policy
(`evidence_validator.py` lines 278 to 299): returns whether the claim is
appended to `valid_functions`, or the exception the loop body raises. -/
def claimKeep (func : Json) : Except PyExn Bool :=
  match func with
  | .jobj o =>
      let validity := o.getD "validity" (.jstr "TRUE")
      if validity = .jstr "DELETED" ∨ validity = .jstr "FALSE" then .ok false
      else
        let correctedPrint : Except PyExn Unit :=
          if validity = .jstr "CORRECTED" then
            -- the log line slices `scientific_consensus[:100]`, which
            -- raises unless the field is subscriptable
            match o.get "scientific_consensus" with
            | some (.jstr _) => .ok ()
            | some (.jarr _) => .ok ()
            | _ => .error .typeError
          else .ok ()
        correctedPrint.bind fun _ =>
          if validity = .jstr "TRUE" then
            match o.get "confidence_score" with
            | none => .ok true
            | some score =>
                if pythonTruthy score then
                  (pyInt score).map (fun n => decide (¬ n < 8))
                else .ok true
          else .ok true
  | _ => .error .attrError

/-- Filter a claims list through `claimKeep`, stopping at the first
exception (mirroring the `for func in ...` loop). -/
def keepClaims : List Json → Except PyExn (List Json)
  | [] => .ok []
  | f :: fs =>
      match claimKeep f with
      | .error e => .error e
      | .ok true => (keepClaims fs).map fun ks => f :: ks
      | .ok false => keepClaims fs

/-- Per-interactor body of the merge loop (`evidence_validator.py`
lines 270 to 307): `none` means the interactor is skipped, `some j` that
`j` (with its filtered `functions`) is appended. -/
def interactorStep (val_int : Json) : Except PyExn (Option Json) :=
  match val_int with
  | .jobj o =>
      if o.get "validity" = some (.jstr "DELETED") then .ok none
      else
        (iterVal (o.getD "functions" (.jarr .nil))).bind fun claims =>
          (keepClaims claims).map fun kept =>
            let o2 := o.set "functions" (.jarr (JArr.ofList kept))
            if kept = [] ∧ ¬ (o.get "validity" = some (.jstr "TRUE")) then none
            else some (.jobj o2)
  | _ => .error .attrError

/-- The merge loop over a batch's reply entries: the interactors
appended so far, plus the exception that interrupted the loop, if any. -/
def mergeBatch : List Json → List Json × Option PyExn
  | [] => ([], none)
  | r :: rs =>
      match interactorStep r with
      | .error e => ([], some e)
      | .ok none => mergeBatch rs
      | .ok (some j) =>
          let m := mergeBatch rs
          (j :: m.1, m.2)

/-- The merge-loop body (`evidence_validator.py` lines 270 to 307)
together with the post-body state of `val_int`: line 301 assigns
`val_int['functions'] = valid_functions` in place, which is observable
when `batch_results` aliases the original batch.  Returns what is
appended (`none` = skipped) paired with the element's state after the
body, or the exception the body raises — every raise point (the `.get`
on a non-dict, the `for` over a non-iterable `functions`, `int()`, the
`[:100]` slice) is before line 301, so a raising element keeps its
original state. -/
def interactorPass (val_int : Json) : Except PyExn (Option Json × Json) :=
  match val_int with
  | .jobj o =>
      if o.get "validity" = some (.jstr "DELETED") then .ok (none, val_int)
      else
        (iterVal (o.getD "functions" (.jarr .nil))).bind fun claims =>
          (keepClaims claims).map fun kept =>
            let o2 := o.set "functions" (.jarr (JArr.ofList kept))
            if kept = [] ∧ ¬ (o.get "validity" = some (.jstr "TRUE")) then
              (none, .jobj o2)
            else (some (.jobj o2), .jobj o2)
  | _ => .error .attrError

/-- The merge loop run over the original batch itself (the
unrecognized-shape fallback `batch_results = batch`, line 266): the
interactors appended so far, the state of the batch's dicts when the
loop stops (elements processed before an exception carry their line-301
mutation; the raising element and all later ones are untouched), and
the interrupting exception, if any. -/
def mergeBatchAliased : List Json → List Json × List Json × Option PyExn
  | [] => ([], [], none)
  | r :: rs =>
      match interactorPass r with
      | .error e => ([], r :: rs, some e)
      | .ok (sel, r2) =>
          let m := mergeBatchAliased rs
          (match sel with | some j => j :: m.1 | none => m.1,
           r2 :: m.2.1, m.2.2)

/-- Reply-shape normalization (`evidence_validator.py` lines 260 to
267): a bare list is used directly; a dict with an `interactors` key is
iterated (which may itself raise); anything else means the original
batch is substituted (`.ok none`). -/
def batchResultsOf (rj : Json) : Except PyExn (Option (List Json)) :=
  match rj with
  | .jarr a => .ok (some a.toList)
  | .jobj o =>
      match o.get "interactors" with
      | some v => (iterVal v).map some
      | none => .ok none
  | _ => .ok none

/-- One iteration of the batch loop (`evidence_validator.py` lines 255
to 311): the interactors this batch contributes to
`validated_interactors`.  A service exception or extraction failure
keeps the batch verbatim.  An unrecognized shape substitutes the batch
itself into the merge policy (`batch_results = batch` aliases the batch
dicts), so after a mid-merge exception the `except` branch re-appends
the batch *as mutated so far* on top of the partial merge results; when
the reply supplies fresh entries, the `except` branch re-appends the
original batch. -/
def processBatch (svc : Except PyExn String) (batch : List Json) : List Json :=
  match svc with
  | .error _ => batch
  | .ok text =>
      match extract_json_from_llm_response text with
      | .error _ => batch
      | .ok rj =>
          match batchResultsOf rj with
          | .error _ => batch
          | .ok none =>
              let m := mergeBatchAliased batch
              m.1 ++ (match m.2.2 with | some _ => m.2.1 | none => [])
          | .ok (some results) =>
              let m := mergeBatch results
              m.1 ++ (match m.2 with | some _ => batch | none => [])

/-- Contiguous batches of size `bs ≥ 1` (fuelled). -/
def chunksAux : Nat → Nat → List Json → List (List Json)
  | 0, _, _ => []
  | _ + 1, _, [] => []
  | fuel + 1, bs, l => l.take bs :: chunksAux fuel bs (l.drop bs)

/-- Python `interactors[i : i + bs]` slicing loop. -/
def chunks (bs : Nat) (l : List Json) : List (List Json) :=
  chunksAux (l.length + 1) bs l

/-- Is the first element of the batch a dict?  Prompt construction
(`create_rigorous_validation_prompt`, called outside the `try`) accesses
`batch[0].get('primary')` and raises when it is not. -/
def headIsObj : List Json → Bool
  | (.jobj _) :: _ => true
  | _ => false

/-- The batch loop: result (or uncaught exception) and the number of
service calls made. -/
def runBatches (svc : Nat → Except PyExn String) (i : Nat) :
    List (List Json) → Except PyExn (List Json) × Nat
  | [] => (.ok [], 0)
  | b :: rest =>
      if headIsObj b then
        let out := processBatch (svc i) b
        let r := runBatches svc (i + 1) rest
        ((r.1).map (fun l => out ++ l), r.2 + 1)
      else (.error .attrError, 0)

/-- Write the validated list into `ctx_json.interactors` and mirror it
into `snapshot_json.interactors` when that key is present
(`evidence_validator.py` lines 313 to 317). -/
def finishValidated (doc : JObj) (co : JObj) (validated : List Json) (n : Nat) :
    Except PyExn JObj × Nat :=
  let co2 := co.set "interactors" (.jarr (JArr.ofList validated))
  let doc2 := doc.set "ctx_json" (.jobj co2)
  match doc2.get "snapshot_json" with
  | none => (.ok doc2, n)
  | some (.jobj so) =>
      (.ok (doc2.set "snapshot_json"
        (.jobj (so.set "interactors" (.jarr (JArr.ofList validated))))), n)
  | some _ => (.error .typeError, n)

/-- Embedding of `validate_and_enrich_evidence`
(`utils/evidence_validator.py`, lines 220 to 319).  `svc` is the
external service oracle; the second component counts service calls. -/
def validate_and_enrich_evidence (doc : JObj) (svc : Nat → Except PyExn String)
    (batch_size : Int) : Except PyExn JObj × Nat :=
  match doc.get "ctx_json" with
  | none => (.ok doc, 0)
  | some ctx =>
      match ctx with
      | .jobj co =>
          let interactorsJ := co.getD "interactors" (.jarr .nil)
          if ¬ pythonTruthy interactorsJ then (.ok doc, 0)
          else
            match interactorsJ with
            | .jarr a =>
                if batch_size = 0 then (.error .valueError, 0)
                else if batch_size < 0 then finishValidated doc co [] 0
                else
                  let batches := chunks batch_size.toNat a.toList
                  let r := runBatches svc 0 batches
                  match r.1 with
                  | .error e => (.error e, r.2)
                  | .ok validated => finishValidated doc co validated r.2
            | _ => (.error .typeError, 0)
      | _ => (.error .attrError, 0)

/-! ### Claims about the validator -/

/-- C10: a document without a `ctx_json` key, or whose `ctx_json` object
has a missing or empty `interactors` sequence, is returned unchanged and
no external service call is made. -/
theorem C10_no_interactors_unchanged (doc : JObj) (svc : Nat → Except PyExn String)
    (bs : Int)
    (h : doc.get "ctx_json" = none ∨
      ∃ co, doc.get "ctx_json" = some (.jobj co) ∧
        (co.get "interactors" = none ∨ co.get "interactors" = some (.jarr .nil))) :
    validate_and_enrich_evidence doc svc bs = (.ok doc, 0) := by
  unfold validate_and_enrich_evidence
  rcases h with h1 | ⟨co, h1, h2⟩
  · rw [h1]
  · rw [h1]
    rcases h2 with h2 | h2 <;>
      simp [JObj.getD, h2, pythonTruthy]

/-- Witness for C10 at a document whose `ctx_json` lacks `interactors`. -/
theorem C10_no_interactors_unchanged_witness :
    validate_and_enrich_evidence (JObj.cons "ctx_json" (.jobj .nil) .nil)
        (fun _ => .error .svcError) 5
      = (.ok (JObj.cons "ctx_json" (.jobj .nil) .nil), 0) :=
  C10_no_interactors_unchanged (JObj.cons "ctx_json" (.jobj .nil) .nil)
    (fun _ => .error .svcError) 5 (Or.inr ⟨.nil, rfl, Or.inl rfl⟩)

/-- C7 counterexample: with `batch_size = 0` and a non-empty interactor
list, `range(0, len(interactors), 0)` raises `ValueError` outside the
per-batch `try`, so `validate_and_enrich_evidence` raises instead of
returning a document. -/
theorem C7_counterexample :
    validate_and_enrich_evidence
        (JObj.cons "ctx_json"
          (.jobj (.cons "interactors" (.jarr (.cons (.jobj .nil) .nil)) .nil)) .nil)
        (fun _ => .error .svcError) 0
      = (.error .valueError, 0) := by decide

/-- Is a JSON value a dict? -/
def isJObj : Json → Bool
  | .jobj _ => true
  | _ => false

/-- Well-formedness under which the validator cannot raise: `ctx_json`,
when present, is an object; its `interactors`, when truthy, is a list of
objects; `snapshot_json`, when present, is an object. -/
def docWF (doc : JObj) : Bool :=
  match doc.get "ctx_json" with
  | none => true
  | some (.jobj co) =>
      (match co.getD "interactors" (.jarr .nil) with
       | .jarr a => (a.toList).all isJObj
       | j => !pythonTruthy j) &&
      (match doc.get "snapshot_json" with
       | none => true
       | some (.jobj _) => true
       | some _ => false)
  | some _ => false

theorem chunksAux_mem : ∀ (fuel bs : Nat) (l b : List Json), 1 ≤ bs →
    b ∈ chunksAux fuel bs l → b ≠ [] ∧ ∀ x ∈ b, x ∈ l
  | 0, bs, l, b, _, h => by simp [chunksAux] at h
  | fuel + 1, bs, [], b, _, h => by simp [chunksAux] at h
  | fuel + 1, bs, y :: ys, b, hbs, h => by
      simp only [chunksAux, List.mem_cons] at h
      rcases h with h | h
      · subst h
        constructor
        · cases bs with
          | zero => omega
          | succ bs => simp [List.take]
        · intro x hx
          exact List.take_subset bs (y :: ys) hx
      · obtain ⟨hne, hsub⟩ := chunksAux_mem fuel bs ((y :: ys).drop bs) b hbs h
        exact ⟨hne, fun x hx => List.drop_subset bs (y :: ys) (hsub x hx)⟩

theorem headIsObj_of (b : List Json) (hne : b ≠ []) (h : b.all isJObj = true) :
    headIsObj b = true := by
  cases b with
  | nil => exact absurd rfl hne
  | cons x xs =>
      simp only [List.all_cons, Bool.and_eq_true] at h
      cases x <;> simp [isJObj] at h ⊢
      all_goals simp [headIsObj]

theorem runBatches_ok (svc : Nat → Except PyExn String) :
    ∀ (batches : List (List Json)) (i : Nat),
    (∀ b ∈ batches, headIsObj b = true) →
    ∃ l, (runBatches svc i batches).1 = .ok l := by
  intro batches
  induction batches with
  | nil => exact fun _ _ => ⟨[], rfl⟩
  | cons b rest ih =>
      intro i h
      obtain ⟨l, hl⟩ := ih (i + 1) (fun b2 hb2 => h b2 (by simp [hb2]))
      refine ⟨processBatch (svc i) b ++ l, ?_⟩
      simp only [runBatches, h b (by simp), if_true, hl]
      rfl

/-- C7 (amended): provided `batch_size ≠ 0` and the document is
well-formed (`ctx_json` an object when present, truthy `interactors` a
list of dicts, `snapshot_json` an object when present),
`validate_and_enrich_evidence` returns a document for every behaviour of
the external service — all batch-level failures are caught internally. -/
theorem C7_never_raises_amended (doc : JObj) (svc : Nat → Except PyExn String)
    (bs : Int) (hwf : docWF doc = true) (hbs : bs ≠ 0) :
    ∃ d, (validate_and_enrich_evidence doc svc bs).1 = .ok d := by
  unfold validate_and_enrich_evidence
  unfold docWF at hwf
  cases hctx : doc.get "ctx_json" with
  | none => exact ⟨doc, rfl⟩
  | some ctx =>
      rw [hctx] at hwf
      cases ctx with
      | jobj co =>
          simp only [Bool.and_eq_true] at hwf
          obtain ⟨hint, hsnap⟩ := hwf
          by_cases htru : pythonTruthy (co.getD "interactors" (.jarr .nil))
          · cases hij : co.getD "interactors" (.jarr .nil) with
            | jarr a =>
                rw [hij] at hint
                have hfin : ∀ validated n,
                    ∃ d, (finishValidated doc co validated n).1 = .ok d := by
                  intro validated n
                  unfold finishValidated
                  dsimp only
                  rw [JObj.get_set_ne doc "ctx_json" "snapshot_json" _ (by decide)]
                  cases hsn : doc.get "snapshot_json" with
                  | none => exact ⟨_, rfl⟩
                  | some sj =>
                      rw [hsn] at hsnap
                      cases sj with
                      | jobj so => exact ⟨_, rfl⟩
                      | jnull => simp at hsnap
                      | jbool b => simp at hsnap
                      | jnum n2 => simp at hsnap
                      | jstr s => simp at hsnap
                      | jarr a2 => simp at hsnap
                have htru2 : pythonTruthy (Json.jarr a) = true := by rw [← hij]; exact htru
                by_cases hneg : bs < 0
                · simp only [hij, htru2, not_true, if_false, if_neg hbs, if_pos hneg]
                  exact hfin [] 0
                · simp only [hij, htru2, not_true, if_false, if_neg hbs, if_neg hneg]
                  have hall : ∀ b ∈ chunks bs.toNat a.toList, headIsObj b = true := by
                    intro b hb
                    obtain ⟨hne, hsub⟩ := chunksAux_mem (a.toList.length + 1) bs.toNat
                      a.toList b (by omega) hb
                    apply headIsObj_of b hne
                    rw [List.all_eq_true]
                    intro x hx
                    rw [List.all_eq_true] at hint
                    exact hint x (hsub x hx)
                  obtain ⟨l, hl⟩ := runBatches_ok svc (chunks bs.toNat a.toList) 0 hall
                  rw [show (runBatches svc 0 (chunks bs.toNat a.toList)).1 = .ok l from hl]
                  dsimp only
                  exact hfin l _
            | jnull => rw [hij] at htru; simp [pythonTruthy] at htru
            | jbool b =>
                rw [hij] at hint
                simp only [Bool.not_eq_true'] at hint
                rw [hij] at htru
                rw [htru] at hint
                simp at hint
            | jnum n =>
                rw [hij] at hint
                simp only [Bool.not_eq_true'] at hint
                rw [hij] at htru
                rw [htru] at hint
                simp at hint
            | jstr s =>
                rw [hij] at hint
                simp only [Bool.not_eq_true'] at hint
                rw [hij] at htru
                rw [htru] at hint
                simp at hint
            | jobj o2 =>
                rw [hij] at hint
                simp only [Bool.not_eq_true'] at hint
                rw [hij] at htru
                rw [htru] at hint
                simp at hint
          · exact ⟨doc, by simp [htru]⟩
      | jnull => simp at hwf
      | jbool b => simp at hwf
      | jnum n => simp at hwf
      | jstr s => simp at hwf
      | jarr a => simp at hwf

/-- Witness for the amended C7: a well-formed one-interactor document
under a service that always raises still yields a document. -/
theorem C7_never_raises_amended_witness :
    docWF (JObj.cons "ctx_json"
        (.jobj (.cons "interactors" (.jarr (.cons (.jobj .nil) .nil)) .nil)) .nil) = true ∧
      ∃ d, (validate_and_enrich_evidence
        (JObj.cons "ctx_json"
          (.jobj (.cons "interactors" (.jarr (.cons (.jobj .nil) .nil)) .nil)) .nil)
        (fun _ => .error .svcError) 1).1 = .ok d :=
  ⟨by decide, C7_never_raises_amended _ (fun _ => .error .svcError) 1 (by decide) (by decide)⟩

/-- C1 counterexample: a batch whose reply parses to an empty object
(neither a bare list nor an object with an `interactors` key) does not
reappear verbatim.  First scenario: the original batch is substituted
into the merge policy, which deletes the interactor marked `DELETED`,
leaving the output `interactors` empty.  Second scenario: in a batch
`[A, B]` where `A` carries one `FALSE` claim and `B` has the
non-iterable `functions` value `5`, the merge empties `A.functions` in
place (line 301) and then raises iterating `B.functions`, so the
`except` branch re-appends `A` with its `functions` already emptied —
the `FALSE` claim is not restored — and `B` verbatim. -/
theorem C1_counterexample :
    extract_json_from_llm_response "\x7b\x7d" = .ok (.jobj .nil) ∧
    batchResultsOf (.jobj .nil) = .ok none ∧
    validate_and_enrich_evidence
        (JObj.cons "ctx_json"
          (.jobj (.cons "interactors"
            (.jarr (.cons (.jobj (.cons "primary" (.jstr "P")
              (.cons "validity" (.jstr "DELETED") .nil))) .nil)) .nil)) .nil)
        (fun _ => .ok "\x7b\x7d") 1
      = (.ok (JObj.cons "ctx_json" (.jobj (.cons "interactors" (.jarr .nil) .nil)) .nil), 1) ∧
    validate_and_enrich_evidence
        (JObj.cons "ctx_json"
          (.jobj (.cons "interactors"
            (.jarr (.cons (.jobj (.cons "primary" (.jstr "A")
                (.cons "functions" (.jarr (.cons
                  (.jobj (.cons "validity" (.jstr "FALSE") .nil)) .nil)) .nil)))
              (.cons (.jobj (.cons "primary" (.jstr "B")
                (.cons "functions" (.jnum 5) .nil))) .nil))) .nil)) .nil)
        (fun _ => .ok "\x7b\x7d") 2
      = (.ok (JObj.cons "ctx_json"
          (.jobj (.cons "interactors"
            (.jarr (.cons (.jobj (.cons "primary" (.jstr "A")
                (.cons "functions" (.jarr .nil) .nil)))
              (.cons (.jobj (.cons "primary" (.jstr "B")
                (.cons "functions" (.jnum 5) .nil))) .nil))) .nil)) .nil), 1) := by
  refine ⟨by decide, by decide, by decide, by decide⟩

theorem interactorStep_eq_pass (v : Json) :
    interactorStep v = (interactorPass v).map Prod.fst := by
  cases v with
  | jobj o =>
      rw [interactorStep.eq_def, interactorPass.eq_def]
      dsimp only
      by_cases hd : o.get "validity" = some (Json.jstr "DELETED")
      · rw [if_pos hd, if_pos hd]
        rfl
      · rw [if_neg hd, if_neg hd]
        cases hiv : iterVal (o.getD "functions" (Json.jarr JArr.nil)) with
        | error e => rfl
        | ok claims =>
            dsimp only [Except.bind]
            cases hkc : keepClaims claims with
            | error e => rfl
            | ok kept =>
                dsimp only [Except.map]
                by_cases hg : kept = [] ∧ ¬ (o.get "validity" = some (Json.jstr "TRUE"))
                · rw [if_pos hg, if_pos hg]
                · rw [if_neg hg, if_neg hg]
  | jnull => rfl
  | jbool b => rfl
  | jnum n => rfl
  | jstr s => rfl
  | jarr a => rfl

theorem mergeBatchAliased_agrees : ∀ batch : List Json,
    (mergeBatchAliased batch).1 = (mergeBatch batch).1 ∧
    (mergeBatchAliased batch).2.2 = (mergeBatch batch).2 := by
  intro batch
  induction batch with
  | nil => exact ⟨rfl, rfl⟩
  | cons r rs ih =>
      simp only [mergeBatchAliased, mergeBatch, interactorStep_eq_pass]
      cases hp : interactorPass r with
      | error e => exact ⟨rfl, rfl⟩
      | ok p =>
          obtain ⟨sel, r2⟩ := p
          dsimp only [Except.map]
          cases sel with
          | none => exact ih
          | some j => exact ⟨by rw [ih.1], ih.2⟩

/-- C1 (amended): a batch whose service call raises, or whose reply text
fails JSON extraction, contributes its original interactors verbatim.
But a reply of unrecognized shape substitutes the original batch itself
(the same dicts) as the reply and re-runs the merge policy over it; if
that merge run raises, what is appended afterwards is the batch in its
mutated state — interactors processed before the raise already carry
their filtered `functions` — not the original batch.  What the merge
appends, and whether it raises, agree with the pure merge policy. -/
theorem C1_batch_fallback_amended (svcOut : Except PyExn String) (batch : List Json) :
    (∀ e, svcOut = .error e → processBatch svcOut batch = batch) ∧
    (∀ t pe, svcOut = .ok t → extract_json_from_llm_response t = .error pe →
        processBatch svcOut batch = batch) ∧
    (∀ t rj, svcOut = .ok t → extract_json_from_llm_response t = .ok rj →
        batchResultsOf rj = .ok none →
        processBatch svcOut batch
          = (mergeBatch batch).1
            ++ (if (mergeBatch batch).2.isSome
                then (mergeBatchAliased batch).2.1 else [])) := by
  refine ⟨?_, ?_, ?_⟩
  · intro e he
    subst he
    rfl
  · intro t pe ht hpe
    subst ht
    unfold processBatch
    dsimp only
    rw [hpe]
  · intro t rj ht hrj hshape
    subst ht
    unfold processBatch
    dsimp only
    rw [hrj]
    dsimp only
    rw [hshape]
    obtain ⟨h1, h2⟩ := mergeBatchAliased_agrees batch
    rw [h1, h2]
    cases hm : (mergeBatch batch).2 <;> simp [hm]

/-- Witness for the amended C1: a raising service call keeps the batch. -/
theorem C1_batch_fallback_amended_witness :
    processBatch (.error .svcError) [Json.jobj .nil] = [Json.jobj .nil] :=
  (C1_batch_fallback_amended (.error .svcError) [Json.jobj .nil]).1 .svcError rfl

/-- C3 counterexample: a `TRUE` claim with a present integer
`confidence_score` of `0` — below the threshold 8 — is nevertheless
kept, because `if score and int(score) < 8` treats the falsy score `0`
as absent. -/
theorem C3_counterexample :
    (JObj.cons "validity" (.jstr "TRUE")
        (.cons "confidence_score" (.jnum 0) .nil)).get "confidence_score"
      = some (.jnum 0) ∧
    claimKeep (.jobj (.cons "validity" (.jstr "TRUE")
        (.cons "confidence_score" (.jnum 0) .nil))) = .ok true := by
  exact ⟨by decide, by decide⟩

/-- C3 (amended): in the merge policy, a claim whose validity is `TRUE`
and whose `confidence_score` field is absent is kept; one whose score is
an integer `k` is kept exactly when `k = 0` (falsy, treated as absent)
or `k ≥ 8`. -/
theorem C3_confidence_threshold_amended (o : JObj)
    (hval : o.getD "validity" (.jstr "TRUE") = .jstr "TRUE") :
    (o.get "confidence_score" = none → claimKeep (.jobj o) = .ok true) ∧
    (∀ k : Int, o.get "confidence_score" = some (.jnum k) →
      claimKeep (.jobj o) = .ok (decide (k = 0 ∨ 8 ≤ k))) := by
  constructor
  · intro hnone
    unfold claimKeep
    dsimp only
    rw [hval]
    simp [hnone]
    rfl
  · intro k hk
    unfold claimKeep
    dsimp only
    rw [hval]
    simp only [show ((Json.jstr "TRUE" = Json.jstr "DELETED") ∨ (Json.jstr "TRUE" = Json.jstr "FALSE")) = False by simp,
      if_false, show (Json.jstr "TRUE" = Json.jstr "CORRECTED") = False by simp, if_true]
    rw [hk]
    simp only [pythonTruthy, pyInt]
    by_cases hk0 : k = 0
    · subst hk0
      simp
      rfl
    · simp only [bne, hk0]
      norm_num [hk0]
      rfl

/-- Witness for the amended C3 at a `TRUE` claim with score 9. -/
theorem C3_confidence_threshold_amended_witness :
    claimKeep (.jobj (JObj.cons "validity" (.jstr "TRUE")
        (.cons "confidence_score" (.jnum 9) .nil))) = .ok (decide ((9 : Int) = 0 ∨ 8 ≤ (9 : Int))) :=
  (C3_confidence_threshold_amended
    (JObj.cons "validity" (.jstr "TRUE") (.cons "confidence_score" (.jnum 9) .nil))
    (by decide)).2 9 (by decide)

/-- The claims list of a merged interactor (its `functions` array). -/
def claimsOfObj (o : JObj) : List Json :=
  match o.get "functions" with
  | some (.jarr a) => a.toList
  | _ => []

theorem keepClaims_mem : ∀ (claims kept : List Json),
    keepClaims claims = .ok kept → ∀ f ∈ kept, claimKeep f = .ok true
  | [], kept, h, f, hf => by
      simp [keepClaims] at h
      subst h
      simp at hf
  | c :: cs, kept, h, f, hf => by
      simp only [keepClaims] at h
      cases hc : claimKeep c with
      | error e =>
          rw [hc] at h
          dsimp only at h
          exact absurd h (by simp)
      | ok b =>
          rw [hc] at h
          cases b with
          | true =>
              dsimp only at h
              cases hks : keepClaims cs with
              | error e =>
                  rw [hks] at h
                  exact absurd h (by simp [Except.map])
              | ok ks =>
                  rw [hks] at h
                  have h2 : c :: ks = kept := by simpa [Except.map] using h
                  rw [← h2] at hf
                  rcases List.mem_cons.mp hf with hf | hf
                  · subst hf; exact hc
                  · exact keepClaims_mem cs ks hks f hf
          | false =>
              dsimp only at h
              exact keepClaims_mem cs kept h f hf

theorem claimKeep_true_validity (fo : JObj)
    (h : claimKeep (.jobj fo) = .ok true) :
    fo.getD "validity" (.jstr "TRUE") ≠ .jstr "FALSE" ∧
      fo.getD "validity" (.jstr "TRUE") ≠ .jstr "DELETED" := by
  unfold claimKeep at h
  dsimp only at h
  by_cases hd : fo.getD "validity" (.jstr "TRUE") = .jstr "DELETED"
      ∨ fo.getD "validity" (.jstr "TRUE") = .jstr "FALSE"
  · rw [if_pos hd] at h
    exact absurd h (by simp)
  · push_neg at hd
    exact ⟨hd.2, hd.1⟩

theorem interactorStep_some (r j : Json) (h : interactorStep r = .ok (some j)) :
    ∃ o2, j = .jobj o2 ∧
      o2.get "validity" ≠ some (.jstr "DELETED") ∧
      (∀ f ∈ claimsOfObj o2, ∀ fo, f = .jobj fo →
          fo.getD "validity" (.jstr "TRUE") ≠ .jstr "FALSE" ∧
          fo.getD "validity" (.jstr "TRUE") ≠ .jstr "DELETED") ∧
      (claimsOfObj o2 ≠ [] ∨ o2.get "validity" = some (.jstr "TRUE")) := by
  cases r with
  | jobj o =>
      unfold interactorStep at h
      dsimp only at h
      by_cases hdel : o.get "validity" = some (.jstr "DELETED")
      · rw [if_pos hdel] at h
        exact absurd h (by simp)
      · rw [if_neg hdel] at h
        cases hit : iterVal (o.getD "functions" (.jarr .nil)) with
        | error e => rw [hit] at h; simp [Except.bind] at h
        | ok claims =>
            rw [hit] at h
            dsimp only [Except.bind] at h
            cases hks : keepClaims claims with
            | error e => rw [hks] at h; simp [Except.map] at h
            | ok kept =>
                rw [hks] at h
                dsimp only [Except.map] at h
                injection h with h
                by_cases hguard : kept = [] ∧ ¬ (o.get "validity" = some (.jstr "TRUE"))
                · rw [if_pos hguard] at h
                  exact absurd h (by simp)
                · rw [if_neg hguard] at h
                  injection h with h
                  refine ⟨o.set "functions" (.jarr (JArr.ofList kept)), h.symm, ?_, ?_, ?_⟩
                  · rw [JObj.get_set_ne o "functions" "validity" _ (by decide)]
                    exact hdel
                  · intro f hf fo hfo
                    have hcl : claimsOfObj (o.set "functions" (.jarr (JArr.ofList kept)))
                        = kept := by
                      unfold claimsOfObj
                      rw [JObj.get_set_self]
                      exact JArr.toList_ofList kept
                    rw [hcl] at hf
                    have := keepClaims_mem claims kept hks f hf
                    rw [hfo] at this
                    exact claimKeep_true_validity fo this
                  · have hcl : claimsOfObj (o.set "functions" (.jarr (JArr.ofList kept)))
                        = kept := by
                      unfold claimsOfObj
                      rw [JObj.get_set_self]
                      exact JArr.toList_ofList kept
                    rw [hcl, JObj.get_set_ne o "functions" "validity" _ (by decide)]
                    push_neg at hguard
                    by_cases hke : kept = []
                    · exact Or.inr (hguard hke)
                    · exact Or.inl hke
  | jnull => exact absurd h (by simp [interactorStep])
  | jbool b => exact absurd h (by simp [interactorStep])
  | jnum n => exact absurd h (by simp [interactorStep])
  | jstr s => exact absurd h (by simp [interactorStep])
  | jarr a => exact absurd h (by simp [interactorStep])

theorem mergeBatch_mem : ∀ (results out : List Json) (e : Option PyExn),
    mergeBatch results = (out, e) → ∀ j ∈ out,
      ∃ r ∈ results, interactorStep r = .ok (some j)
  | [], out, e, h, j, hj => by
      simp [mergeBatch] at h
      rw [h.1] at hj
      simp at hj
  | r :: rs, out, e, h, j, hj => by
      simp only [mergeBatch] at h
      cases hstep : interactorStep r with
      | error e2 =>
          rw [hstep] at h
          injection h with h1 h2
          rw [← h1] at hj
          simp at hj
      | ok o? =>
          rw [hstep] at h
          cases o? with
          | none =>
              obtain ⟨r2, hr2, hr3⟩ := mergeBatch_mem rs out e h j hj
              exact ⟨r2, by simp [hr2], hr3⟩
          | some j2 =>
              injection h with h1 h2
              rw [← h1] at hj
              rcases List.mem_cons.mp hj with hj | hj
              · subst hj
                exact ⟨r, by simp, hstep⟩
              · obtain ⟨r2, hr2, hr3⟩ := mergeBatch_mem rs (mergeBatch rs).1
                  (mergeBatch rs).2 rfl j hj
                exact ⟨r2, by simp [hr2], hr3⟩

/-- C5 counterexample: under a raising service the fallback keeps the
original batch verbatim, so the output contains a `FunctionClaim` whose
validity is `FALSE` — outside the claimed `{TRUE, CORRECTED}` set. -/
theorem C5_counterexample :
    validate_and_enrich_evidence
        (JObj.cons "ctx_json"
          (.jobj (.cons "interactors"
            (.jarr (.cons (.jobj (.cons "primary" (.jstr "P")
              (.cons "functions"
                (.jarr (.cons (.jobj (.cons "validity" (.jstr "FALSE") .nil)) .nil))
                .nil))) .nil)) .nil)) .nil)
        (fun _ => .error .svcError) 1
      = (.ok (JObj.cons "ctx_json"
          (.jobj (.cons "interactors"
            (.jarr (.cons (.jobj (.cons "primary" (.jstr "P")
              (.cons "functions"
                (.jarr (.cons (.jobj (.cons "validity" (.jstr "FALSE") .nil)) .nil))
                .nil))) .nil)) .nil)) .nil), 1) ∧
    (JObj.cons "validity" (.jstr "FALSE") .nil).getD "validity" (.jstr "TRUE")
        = .jstr "FALSE" ∧
    Json.jstr "FALSE" ≠ .jstr "TRUE" ∧ Json.jstr "FALSE" ≠ .jstr "CORRECTED" := by
  exact ⟨by decide, by decide, by decide, by decide⟩

/-- C5 (amended): the merge policy itself guarantees the invariant for
every batch whose reply was recognized and merged without exception-free
interruption: every surviving interactor is an object whose top-level
validity is not `DELETED`, each of its surviving claims' validity tags
is neither `FALSE` nor `DELETED`, and it has at least one surviving
claim or explicit top-level validity `TRUE`.  (Fallback batches are kept
verbatim and carry no such guarantee, as the counterexample shows.) -/
theorem C5_merge_invariant_amended (results out : List Json) (e : Option PyExn)
    (hm : mergeBatch results = (out, e)) :
    ∀ j ∈ out, ∃ o2, j = .jobj o2 ∧
      o2.get "validity" ≠ some (.jstr "DELETED") ∧
      (∀ f ∈ claimsOfObj o2, ∀ fo, f = .jobj fo →
          fo.getD "validity" (.jstr "TRUE") ≠ .jstr "FALSE" ∧
          fo.getD "validity" (.jstr "TRUE") ≠ .jstr "DELETED") ∧
      (claimsOfObj o2 ≠ [] ∨ o2.get "validity" = some (.jstr "TRUE")) := by
  intro j hj
  obtain ⟨r, _, hstep⟩ := mergeBatch_mem results out e hm j hj
  exact interactorStep_some r j hstep

/-- Witness for the amended C5 at a one-interactor recognized reply. -/
theorem C5_merge_invariant_amended_witness :
    ∃ o2, Json.jobj (.cons "primary" (.jstr "P")
        (.cons "functions" (.jarr (.cons (.jobj (.cons "validity" (.jstr "TRUE") .nil)) .nil))
          .nil)) = .jobj o2 ∧
      o2.get "validity" ≠ some (.jstr "DELETED") ∧
      (∀ f ∈ claimsOfObj o2, ∀ fo, f = .jobj fo →
          fo.getD "validity" (.jstr "TRUE") ≠ .jstr "FALSE" ∧
          fo.getD "validity" (.jstr "TRUE") ≠ .jstr "DELETED") ∧
      (claimsOfObj o2 ≠ [] ∨ o2.get "validity" = some (.jstr "TRUE")) :=
  C5_merge_invariant_amended
    [Json.jobj (.cons "primary" (.jstr "P")
      (.cons "functions" (.jarr (.cons (.jobj (.cons "validity" (.jstr "TRUE") .nil)) .nil))
        .nil))]
    [Json.jobj (.cons "primary" (.jstr "P")
      (.cons "functions" (.jarr (.cons (.jobj (.cons "validity" (.jstr "TRUE") .nil)) .nil))
        .nil))]
    none (by decide)
    (Json.jobj (.cons "primary" (.jstr "P")
      (.cons "functions" (.jarr (.cons (.jobj (.cons "validity" (.jstr "TRUE") .nil)) .nil))
        .nil)))
    (by decide)

/-! ### External service invocation (C4)

`call_gemini_with_search` (`evidence_validator.py` lines 73 to 147) and
`call_gemini_chain_link` (`indirect_chain_linker.py` lines 54 to 103)
are embedded over an oracle `orc : Nat → SvcOut` giving the outcome of
the `i`-th `generate_content` call: the final response text, a
404/"not found"-class error, or a transient error.  (A response with no
extractable text in the linker behaves like an error and is folded into
`errT`.)  Each embedding returns its result together with the number of
calls made and, for the validator, the list of backoff delays slept. -/

/-- Outcome of one `generate_content` call. -/
inductive SvcOut where
  | ok (s : String) : SvcOut
  | errNF : SvcOut
  | errT : SvcOut
  deriving DecidableEq

/-- The validator's inner retry loop (`for attempt in range(1, max_retries + 1)`),
with `attempt` the 1-based attempt number and the last argument the
number of attempts left (initially `max_retries`).  Returns the result,
the number of calls made for this model, and the backoff delays slept
(`base_delay * 2 ** (attempt - 1)`, base 5 seconds). -/
def gemini_attempts (orc : Nat → SvcOut) (k : Nat) :
    Nat → Nat → Option String × Nat × List Nat
  | _, 0 => (none, 0, [])
  | attempt, left + 1 =>
      match orc k with
      | .ok s => (some s, 1, [])
      | .errNF => (none, 1, [])
      | .errT =>
          if left = 0 then (none, 1, [])
          else
            let r := gemini_attempts orc (k + 1) (attempt + 1) left
            (r.1, r.2.1 + 1, (5 * 2 ^ (attempt - 1)) :: r.2.2)

/-- The validator's model fallback chain (`for model_name in models_to_try`). -/
def geminiFallback (orc : Nat → SvcOut) (k : Nat) :
    List String → Option String × Nat × List Nat
  | [] => (none, 0, [])
  | _ :: ms =>
      let a := gemini_attempts orc k 1 3
      match a.1 with
      | some s => (some s, a.2.1, a.2.2)
      | none =>
          let r := geminiFallback orc (k + a.2.1) ms
          (r.1, a.2.1 + r.2.1, a.2.2 ++ r.2.2)

/-- The validator's model priority list (`evidence_validator.py` line 104). -/
def models_to_try : List String :=
  ["gemini-3.0-pro-preview", "gemini-2.0-flash-thinking-exp-01-21"]

/-- Embedding of `call_gemini_with_search`: result (`none` models the
raised `EvidenceValidatorError("All models failed.")`), number of
service calls, and backoff delays slept. -/
def call_gemini_with_search (orc : Nat → SvcOut) : Option String × Nat × List Nat :=
  geminiFallback orc 0 models_to_try

/-- The linker's model loop: one call per model, any failure moves on;
an exhausted list returns the empty string. -/
def chainLinkGo (orc : Nat → SvcOut) (k : Nat) : List String → String × Nat
  | [] => ("", 0)
  | _ :: ms =>
      match orc k with
      | .ok s => (s, 1)
      | _ =>
          let r := chainLinkGo orc (k + 1) ms
          (r.1, r.2 + 1)

/-- Embedding of `call_gemini_chain_link` with its single-element model
list (`indirect_chain_linker.py` line 78): the returned text and the
number of service calls made. -/
def call_gemini_chain_link (orc : Nat → SvcOut) : String × Nat :=
  chainLinkGo orc 0 ["gemini-2.5-pro"]

theorem gemini_attempts_calls_le (orc : Nat → SvcOut) :
    ∀ (left k attempt : Nat), (gemini_attempts orc k attempt left).2.1 ≤ left := by
  intro left
  induction left with
  | zero => intro k attempt; simp [gemini_attempts]
  | succ left ih =>
      intro k attempt
      simp only [gemini_attempts]
      cases orc k with
      | ok s => simp
      | errNF => simp
      | errT =>
          by_cases h0 : left = 0
          · simp [h0]
          · simp only [h0, if_false]
            have := ih (k + 1) (attempt + 1)
            omega

theorem gemini_attempts_calls_pos (orc : Nat → SvcOut) (k attempt left : Nat)
    (h : 1 ≤ left) : 1 ≤ (gemini_attempts orc k attempt left).2.1 := by
  cases left with
  | zero => omega
  | succ left =>
      simp only [gemini_attempts]
      cases orc k with
      | ok s => simp
      | errNF => simp
      | errT =>
          by_cases h0 : left = 0
          · simp [h0]
          · simp only [h0, if_false]
            omega

theorem gemini_attempts_delays (orc : Nat → SvcOut) :
    ∀ (left k attempt d : Nat), 1 ≤ attempt →
      d ∈ (gemini_attempts orc k attempt left).2.2 →
      ∃ i, i + 1 < left ∧ d = 5 * 2 ^ (attempt - 1 + i) := by
  intro left
  induction left with
  | zero => intro k attempt d _ h; simp [gemini_attempts] at h
  | succ left ih =>
      intro k attempt d ha h
      simp only [gemini_attempts] at h
      cases horc : orc k with
      | ok s => rw [horc] at h; simp at h
      | errNF => rw [horc] at h; simp at h
      | errT =>
          rw [horc] at h
          by_cases h0 : left = 0
          · simp [h0] at h
          · simp only [h0, if_false, List.mem_cons] at h
            rcases h with h | h
            · exact ⟨0, by omega, by simpa using h⟩
            · obtain ⟨i, hi, hd⟩ := ih (k + 1) (attempt + 1) d (by omega) h
              refine ⟨i + 1, by omega, ?_⟩
              rw [hd]
              congr 2
              omega

theorem geminiFallback_calls_le (orc : Nat → SvcOut) :
    ∀ (ms : List String) (k : Nat), (geminiFallback orc k ms).2.1 ≤ 3 * ms.length := by
  intro ms
  induction ms with
  | nil => intro k; simp [geminiFallback]
  | cons m ms ih =>
      intro k
      simp only [geminiFallback]
      cases ha : (gemini_attempts orc k 1 3).1 with
      | some s =>
          simp only []
          have := gemini_attempts_calls_le orc 3 k 1
          simp [List.length_cons]
          omega
      | none =>
          simp only []
          have h1 := gemini_attempts_calls_le orc 3 k 1
          have h2 := ih (k + (gemini_attempts orc k 1 3).2.1)
          simp [List.length_cons]
          omega

theorem geminiFallback_delays (orc : Nat → SvcOut) :
    ∀ (ms : List String) (k d : Nat), d ∈ (geminiFallback orc k ms).2.2 →
      d = 5 ∨ d = 10 := by
  intro ms
  induction ms with
  | nil => intro k d h; simp [geminiFallback] at h
  | cons m ms ih =>
      intro k d h
      simp only [geminiFallback] at h
      have hdel : ∀ d2, d2 ∈ (gemini_attempts orc k 1 3).2.2 → d2 = 5 ∨ d2 = 10 := by
        intro d2 hd2
        obtain ⟨i, hi, hd⟩ := gemini_attempts_delays orc 3 k 1 d2 (by omega) hd2
        have hi2 : i = 0 ∨ i = 1 := by omega
        rcases hi2 with h2 | h2 <;> subst h2
        · left; simpa using hd
        · right; simpa using hd
      cases ha : (gemini_attempts orc k 1 3).1 with
      | some s =>
          rw [ha] at h
          simp only [List.mem_cons] at h
          exact hdel d h
      | none =>
          rw [ha] at h
          simp only [List.mem_append] at h
          rcases h with h | h
          · exact hdel d h
          · exact ih _ d h

theorem geminiFallback_none_calls_ge (orc : Nat → SvcOut) :
    ∀ (ms : List String) (k : Nat), (geminiFallback orc k ms).1 = none →
      ms.length ≤ (geminiFallback orc k ms).2.1 := by
  intro ms
  induction ms with
  | nil => intro k _; simp [geminiFallback]
  | cons m ms ih =>
      intro k hnone
      simp only [geminiFallback] at hnone ⊢
      cases ha : (gemini_attempts orc k 1 3).1 with
      | some s => rw [ha] at hnone; simp at hnone
      | none =>
          rw [ha] at hnone
          dsimp only at hnone ⊢
          have h1 := gemini_attempts_calls_pos orc k 1 3 (by omega)
          have h2 := ih (k + (gemini_attempts orc k 1 3).2.1) hnone
          simp [List.length_cons]
          omega

/-- C4 counterexample: the two call sites do NOT follow the same
pattern.  With an oracle whose first call fails transiently and whose
later calls succeed, the validator retries (sleeping the 5-second base
delay) and recovers the answer, while the linker makes exactly one call,
never retries, and signals failure softly as the empty string rather
than as a hard failure. -/
theorem C4_counterexample :
    call_gemini_chain_link
        (fun k => if k = 0 then SvcOut.errT else SvcOut.ok "recovered") = ("", 1) ∧
    call_gemini_with_search
        (fun k => if k = 0 then SvcOut.errT else SvcOut.ok "recovered") =
      (some "recovered", 2, [5]) := by
  exact ⟨by decide, by decide⟩

/-- C4 (amended): the validator `call_gemini_with_search` tries the
2-model fallback chain with at most 3 attempts per model (so at most 6
calls), every backoff delay slept is 5 or 10 seconds (base 5, doubling
per attempt), a 404/not-found-class error abandons the model at once
(one call, no sleep) and moves to the next, and exhaustion of all
models is a hard failure reached only after every model was called.
The linker `call_gemini_chain_link`, by contrast, makes at most one
call in total: a single model, a single attempt, no backoff, and
returns the empty string (a soft failure) when that call does not
produce text. -/
theorem C4_call_pattern_amended (orc : Nat → SvcOut) :
    (call_gemini_with_search orc).2.1 ≤ 6 ∧
    (∀ d, d ∈ (call_gemini_with_search orc).2.2 → d = 5 ∨ d = 10) ∧
    (∀ s, orc 0 = SvcOut.errNF → orc 1 = SvcOut.ok s →
      call_gemini_with_search orc = (some s, 2, [])) ∧
    ((call_gemini_with_search orc).1 = none →
      2 ≤ (call_gemini_with_search orc).2.1) ∧
    (call_gemini_chain_link orc).2 ≤ 1 ∧
    (∀ s, orc 0 = SvcOut.ok s → call_gemini_chain_link orc = (s, 1)) ∧
    (orc 0 = SvcOut.errNF ∨ orc 0 = SvcOut.errT →
      call_gemini_chain_link orc = ("", 1)) := by
  refine ⟨?_, ?_, ?_, ?_, ?_, ?_, ?_⟩
  · have := geminiFallback_calls_le orc models_to_try 0
    simpa [call_gemini_with_search, models_to_try] using this
  · intro d hd
    exact geminiFallback_delays orc models_to_try 0 d hd
  · intro s h0 h1
    simp [call_gemini_with_search, models_to_try, geminiFallback,
      gemini_attempts, h0, h1]
  · intro hnone
    have := geminiFallback_none_calls_ge orc models_to_try 0 hnone
    simpa [models_to_try] using this
  · unfold call_gemini_chain_link chainLinkGo
    cases orc 0 <;> simp [chainLinkGo]
  · intro s h0
    simp [call_gemini_chain_link, chainLinkGo, h0]
  · intro h0
    rcases h0 with h0 | h0 <;> simp [call_gemini_chain_link, chainLinkGo, h0]

/-- Witness for C4 (amended): at the concrete oracle whose first call is
a 404-class failure and whose second succeeds with `"x"`, the validator
recovers `"x"` in 2 calls with no sleeps and the linker returns the
empty string after its single call. -/
theorem C4_call_pattern_amended_witness :
    call_gemini_with_search
        (fun k => if k = 0 then SvcOut.errNF else SvcOut.ok "x") = (some "x", 2, []) ∧
    call_gemini_chain_link
        (fun k => if k = 0 then SvcOut.errNF else SvcOut.ok "x") = ("", 1) :=
  ⟨(C4_call_pattern_amended
      (fun k => if k = 0 then SvcOut.errNF else SvcOut.ok "x")).2.2.1 "x" rfl rfl,
   (C4_call_pattern_amended
      (fun k => if k = 0 then SvcOut.errNF else SvcOut.ok "x")).2.2.2.2.2.2 (Or.inl rfl)⟩

/-! ### Indirect chain linking into the external store (C6) -/

/-- Modelled from the spec: the external protein-interaction database
(module `protein_database`, not part of this repository's sources) is
"an opaque key-value store keyed by protein pair, exposing
`get_all_interactions(protein) -> list[record]` and
`save_interaction(a, b, record)`".  We model it as an ordered
association list from protein pairs to records. -/
abbrev Store := List ((String × String) × Json)

/-- Modelled from the spec: `get_all_interactions(protein)` returns the
records stored under pairs whose first component is the given protein,
in store order. -/
def get_all_interactions (st : Store) (p : String) : List Json :=
  (st.filter (fun e => decide (e.1.1 = p))).map Prod.snd

/-- Modelled from the spec: `save_interaction(a, b, record)` persists
the record keyed by the pair `(a, b)`: it replaces the entry for that
pair if one exists and appends a new entry otherwise. -/
def save_interaction (st : Store) (a b : String) (r : Json) : Store :=
  match st with
  | [] => [((a, b), r)]
  | e :: rest =>
      if e.1 = (a, b) then ((a, b), r) :: rest
      else e :: save_interaction rest a b r

/-- Association-list lookup by exact protein pair (the view of the
store the C6 theorem is phrased in). -/
def lookupStore : Store → String × String → Option Json
  | [], _ => none
  | e :: rest, k => if e.1 = k then some e.2 else lookupStore rest k

/-- The linker's scan
`next((i for i in existing_interactions if i.get("primary") == target_name), None)`
(`indirect_chain_linker.py` line 221): the first record whose
`primary` field equals the target name; a non-dict record raises
`AttributeError` at `.get`. -/
def findExisting (target : String) : List Json → Except PyExn (Option Json)
  | [] => .ok none
  | j :: rest =>
      match j with
      | .jobj o =>
          if o.get "primary" = some (.jstr target)
          then .ok (some j)
          else findExisting target rest
      | _ => .error .attrError

/-- Embedding of the store-update step of `process_indirect_chain`
(`indirect_chain_linker.py` lines 208 to 236) for one parsed claim
`result_json`: skip falsy claims, build the fresh interaction record,
look up an existing mediator record for the target, and either save
that record with the claim appended to its `functions` or save the
fresh record.  (In Python the found record is an alias into the store
and is mutated in place before being re-saved under
`(mediator, target)`; under `storeWF` the found record lives at exactly
that key, so replacing it there is the same final store.) -/
def linkChainStep (st : Store) (mediator target main : String) (claim : Json) :
    Except PyExn Store :=
  if pythonTruthy claim = false then .ok st
  else
    match claim with
    | .jobj co =>
        let base : Json := .jobj (
          .cons "primary" (.jstr target) (
          .cons "arrow" (co.getD "arrow" .jnull) (
          .cons "functions" (.jarr (.cons claim .nil)) (
          .cons "interaction_type" (.jstr "direct") (
          .cons "discovered_in_query" (.jstr main) .nil)))))
        match findExisting target (get_all_interactions st mediator) with
        | .error e => .error e
        | .ok none => .ok (save_interaction st mediator target base)
        | .ok (some (.jobj eo)) =>
            match eo.getD "functions" (.jarr .nil) with
            | .jarr a =>
                .ok (save_interaction st mediator target
                  (.jobj (eo.set "functions"
                    (.jarr (JArr.ofList (a.toList ++ [claim]))))))
            | _ => .error .attrError
        | .ok (some _) => .error .attrError
    | _ => .error .attrError

/-- A well-formed store entry: the record is an object whose `primary`
field is the string second component of its key, and whose `functions`
field, when read with default `[]`, is a sequence. -/
def recordWF : (String × String) × Json → Bool
  | ((_, b), .jobj o) =>
      decide (o.get "primary" = some (.jstr b)) &&
      (match o.getD "functions" (.jarr .nil) with
       | .jarr _ => true
       | _ => false)
  | _ => false

/-- A well-formed store: every entry satisfies `recordWF`. -/
def storeWF (st : Store) : Prop := ∀ e ∈ st, recordWF e = true

theorem lookupStore_mem : ∀ (st : Store) (k : String × String) (j : Json),
    lookupStore st k = some j → (k, j) ∈ st := by
  intro st
  induction st with
  | nil => intro k j h; simp [lookupStore] at h
  | cons e rest ih =>
      intro k j h
      simp only [lookupStore] at h
      by_cases he : e.1 = k
      · rw [if_pos he] at h
        injection h with h
        subst he
        subst h
        simp
      · rw [if_neg he] at h
        exact List.mem_cons_of_mem e (ih k j h)

theorem save_lookup_self (st : Store) (a b : String) (r : Json) :
    lookupStore (save_interaction st a b r) (a, b) = some r := by
  induction st with
  | nil => simp [save_interaction, lookupStore]
  | cons e rest ih =>
      simp only [save_interaction]
      by_cases h : e.1 = (a, b)
      · simp [h, lookupStore]
      · simp [h, lookupStore, ih]

theorem save_lookup_ne (st : Store) (a b : String) (r : Json)
    (k : String × String) (hk : k ≠ (a, b)) :
    lookupStore (save_interaction st a b r) k = lookupStore st k := by
  induction st with
  | nil => simp [save_interaction, lookupStore, Ne.symm hk]
  | cons e rest ih =>
      simp only [save_interaction]
      by_cases h : e.1 = (a, b)
      · simp [lookupStore, h, Ne.symm hk]
      · simp only [lookupStore, if_neg h]
        rw [ih]

theorem save_length_of_some (st : Store) (a b : String) (r j : Json)
    (h : lookupStore st (a, b) = some j) :
    (save_interaction st a b r).length = st.length := by
  induction st with
  | nil => simp [lookupStore] at h
  | cons e rest ih =>
      simp only [save_interaction]
      by_cases he : e.1 = (a, b)
      · simp [he]
      · simp only [lookupStore, if_neg he] at h
        simp [he, ih h]

theorem save_append_of_none (st : Store) (a b : String) (r : Json)
    (h : lookupStore st (a, b) = none) :
    save_interaction st a b r = st ++ [((a, b), r)] := by
  induction st with
  | nil => simp [save_interaction]
  | cons e rest ih =>
      simp only [lookupStore] at h
      by_cases he : e.1 = (a, b)
      · rw [if_pos he] at h
        simp at h
      · rw [if_neg he] at h
        simp only [save_interaction, if_neg he, List.cons_append]
        rw [ih h]

theorem findExisting_eq_lookup : ∀ (st : Store) (m t : String), storeWF st →
    findExisting t (get_all_interactions st m) = .ok (lookupStore st (m, t)) := by
  intro st
  induction st with
  | nil => intro m t _; simp [get_all_interactions, findExisting, lookupStore]
  | cons e rest ih =>
      intro m t hwf
      have hwfe : recordWF e = true := hwf e (by simp)
      have hwfr : storeWF rest := fun x hx => hwf x (by simp [hx])
      obtain ⟨⟨a, b⟩, j⟩ := e
      by_cases hm : a = m
      · subst hm
        cases j with
        | jobj o =>
            simp only [recordWF, Bool.and_eq_true, decide_eq_true_eq] at hwfe
            obtain ⟨hprim, _⟩ := hwfe
            have hga : get_all_interactions (((a, b), Json.jobj o) :: rest) a
                = Json.jobj o :: get_all_interactions rest a := by
              simp [get_all_interactions, List.filter_cons]
            rw [hga]
            have hstep : findExisting t (Json.jobj o :: get_all_interactions rest a)
                = if o.get "primary" = some (Json.jstr t)
                  then Except.ok (some (Json.jobj o))
                  else findExisting t (get_all_interactions rest a) := rfl
            rw [hstep]
            by_cases hbt : b = t
            · subst hbt
              rw [if_pos hprim]
              have hlk : lookupStore (((a, b), Json.jobj o) :: rest) (a, b)
                  = some (Json.jobj o) := by
                simp [lookupStore]
              rw [hlk]
            · have hcond : ¬ (o.get "primary" = some (Json.jstr t)) := by
                rw [hprim]
                intro hcontra
                injection hcontra with hcontra
                injection hcontra with hcontra
                exact hbt hcontra
              have hkey : ¬ (((a, b) : String × String) = (a, t)) := by
                intro hcontra
                injection hcontra with h1 h2
                exact hbt h2
              rw [if_neg hcond]
              have hlk : lookupStore (((a, b), Json.jobj o) :: rest) (a, t)
                  = lookupStore rest (a, t) := by
                simp [lookupStore, hkey]
              rw [hlk]
              exact ih a t hwfr
        | jnull => simp [recordWF] at hwfe
        | jbool bb => simp [recordWF] at hwfe
        | jnum n => simp [recordWF] at hwfe
        | jstr s => simp [recordWF] at hwfe
        | jarr arr => simp [recordWF] at hwfe
      · have hkey : ¬ (((a, b) : String × String) = (m, t)) := by
          intro hcontra
          injection hcontra with h1 h2
          exact hm h1
        have hga : get_all_interactions (((a, b), j) :: rest) m
            = get_all_interactions rest m := by
          simp [get_all_interactions, List.filter_cons, hm]
        have hlk : lookupStore (((a, b), j) :: rest) (m, t)
            = lookupStore rest (m, t) := by
          simp [lookupStore, hkey]
        rw [hga, hlk]
        exact ih m t hwfr

/-- C6: when `process_indirect_chain` obtains a truthy parsed claim
object for a mediator-to-target chain, then over the spec-modelled
pair-keyed store: if the well-formed store already holds a record for
the mediator whose `primary` equals the target (an entry at key
`(mediator, target)`), the saved record is that existing record with
the new claim appended at the end of its `functions` sequence — the
existing claims are preserved, the store size is unchanged (no second
record) and every other key is untouched; otherwise the new record,
carrying exactly the one new function, is appended to the store. -/
theorem C6_linker_merge (st : Store) (m t main : String) (claim : Json) (co : JObj)
    (hwf : storeWF st) (htr : pythonTruthy claim = true)
    (hc : claim = Json.jobj co) :
    (∀ eo, lookupStore st (m, t) = some (Json.jobj eo) →
      ∃ a st2, eo.getD "functions" (Json.jarr JArr.nil) = Json.jarr a ∧
        linkChainStep st m t main claim = .ok st2 ∧
        lookupStore st2 (m, t) =
          some (Json.jobj (eo.set "functions"
            (Json.jarr (JArr.ofList (a.toList ++ [claim]))))) ∧
        st2.length = st.length ∧
        (∀ k, k ≠ (m, t) → lookupStore st2 k = lookupStore st k)) ∧
    (lookupStore st (m, t) = none →
      linkChainStep st m t main claim =
        .ok (st ++ [((m, t), Json.jobj (
          JObj.cons "primary" (Json.jstr t) (
          JObj.cons "arrow" (co.getD "arrow" Json.jnull) (
          JObj.cons "functions" (Json.jarr (JArr.cons claim JArr.nil)) (
          JObj.cons "interaction_type" (Json.jstr "direct") (
          JObj.cons "discovered_in_query" (Json.jstr main) JObj.nil))))))])) := by
  subst hc
  constructor
  · intro eo hlk
    have hmem := lookupStore_mem st (m, t) (Json.jobj eo) hlk
    have hrec := hwf _ hmem
    simp only [recordWF, Bool.and_eq_true] at hrec
    obtain ⟨_, hfun⟩ := hrec
    cases hget : eo.getD "functions" (Json.jarr JArr.nil) with
    | jarr a =>
        have hrun : linkChainStep st m t main (Json.jobj co) =
            Except.ok (save_interaction st m t (Json.jobj (eo.set "functions"
              (Json.jarr (JArr.ofList (a.toList ++ [Json.jobj co])))))) := by
          rw [linkChainStep.eq_def]
          split
          · rename_i hfalse
            rw [htr] at hfalse
            simp at hfalse
          · dsimp only
            rw [findExisting_eq_lookup st m t hwf, hlk]
            dsimp only
            rw [hget]
        refine ⟨a, save_interaction st m t (Json.jobj (eo.set "functions"
          (Json.jarr (JArr.ofList (a.toList ++ [Json.jobj co]))))),
          rfl, hrun, save_lookup_self st m t _, ?_, ?_⟩
        · exact save_length_of_some st m t _ _ hlk
        · intro k hk
          exact save_lookup_ne st m t _ k hk
    | jnull => rw [hget] at hfun; simp at hfun
    | jbool bb => rw [hget] at hfun; simp at hfun
    | jnum n => rw [hget] at hfun; simp at hfun
    | jstr s => rw [hget] at hfun; simp at hfun
    | jobj o2 => rw [hget] at hfun; simp at hfun
  · intro hnone
    rw [linkChainStep.eq_def]
    split
    · rename_i hfalse
      rw [htr] at hfalse
      simp at hfalse
    · dsimp only
      rw [findExisting_eq_lookup st m t hwf, hnone]
      dsimp only
      rw [save_append_of_none st m t _ hnone]

/-- Witness for C6: on the empty store, linking the concrete claim
object for chain MAIN -> MED -> TGT appends one record keyed
`(MED, TGT)` whose `functions` holds exactly that claim. -/
theorem C6_linker_merge_witness :
    linkChainStep [] "MED" "TGT" "MAIN"
        (Json.jobj (JObj.cons "arrow" (Json.jstr "activates") JObj.nil)) =
      Except.ok [(("MED", "TGT"), Json.jobj (
        JObj.cons "primary" (Json.jstr "TGT") (
        JObj.cons "arrow" (Json.jstr "activates") (
        JObj.cons "functions" (Json.jarr (JArr.cons
          (Json.jobj (JObj.cons "arrow" (Json.jstr "activates") JObj.nil))
          JArr.nil)) (
        JObj.cons "interaction_type" (Json.jstr "direct") (
        JObj.cons "discovered_in_query" (Json.jstr "MAIN") JObj.nil))))))] := by
  exact (C6_linker_merge [] "MED" "TGT" "MAIN"
    (Json.jobj (JObj.cons "arrow" (Json.jstr "activates") JObj.nil))
    (JObj.cons "arrow" (Json.jstr "activates") JObj.nil)
    (fun e he => absurd he (List.not_mem_nil e)) (by decide) rfl).2 rfl
